import Mathlib

/-!
Verification development for the author-line parser and the TeX-to-Unicode
transliterator of `update_kaggle_metadata.py` (the sections copied from
arxiv-base `authors.py` / `tex2utf.py`).

Strings are modelled as `List Char`.  Each Python regex pass is compiled by
hand into a deterministic scanner that reproduces the engine's
leftmost-match, non-overlapping global-substitution semantics for that
specific pattern (greedy subpatterns whose backtracking cannot succeed are
resolved into maximal-munch scans; this is noted case by case).
Python's `\s` is modelled by `isPySpace` (the six ASCII whitespace
characters) and `\w` by ASCII alphanumerics plus underscore; the inputs the
theorems touch are ASCII, where these agree with Python.  `$` is modelled
as end-of-string and `.` as any character but `'\n'`: every string reaching
the newline-sensitive patterns in the pipeline has already had its
whitespace runs collapsed to single spaces, so the `$`-before-final-newline
subtlety of Python is unreachable there.
-/

namespace UKM

/-- Python `\s` (ASCII part): space, tab, newline, carriage return,
vertical tab, form feed. -/
def isPySpace (c : Char) : Bool :=
  c = ' ' || c = '\t' || c = '\n' || c = '\r' || c = '\x0b' || c = '\x0c'

/-- ASCII letter, as in the explicit `[a-zA-Z]` classes of tex2utf.py. -/
def isAsciiLetter (c : Char) : Bool :=
  ('a' ≤ c && c ≤ 'z') || ('A' ≤ c && c ≤ 'Z')

/-- Python `\w`, restricted to ASCII: letter, digit or underscore. -/
def isWordChar (c : Char) : Bool :=
  isAsciiLetter c || c.isDigit || c = '_'

/-- `\b`-or-`(?=_)` after a letter, as used in `_p_to_match`'s pattern
`(\b|(?=_))`: satisfied at end of input, or when the next character is not
alphanumeric (the underscore case is absorbed by the lookahead). -/
def boundaryOk : List Char → Bool
  | [] => true
  | c :: _ => !(isAsciiLetter c || c.isDigit)

/-- Strip an exact (case-sensitive) prefix. -/
def dropPre : List Char → List Char → Option (List Char)
  | [], cs => some cs
  | _ :: _, [] => none
  | p :: ps, c :: cs => if c = p then dropPre ps cs else none

/-- Strip a case-insensitive prefix (Python `re.IGNORECASE`). -/
def dropPreCi : List Char → List Char → Option (List Char)
  | [], cs => some cs
  | _ :: _, [] => none
  | p :: ps, c :: cs => if c.toLower = p.toLower then dropPreCi ps cs else none

/-!  ## tex2utf.py: lookup tables (entries in source order) -/

/-- The `accents` dict of tex2utf.py: two-character TeX accent key to
Unicode code point. -/
def accents : List ((Char × Char) × Nat) :=
  [(('\'', 'A'), 0x00c1), (('\'', 'C'), 0x0106), (('\'', 'E'), 0x00c9), (('\'', 'I'), 0x00cd),
   (('\'', 'L'), 0x0139), (('\'', 'N'), 0x0143), (('\'', 'O'), 0x00d3), (('\'', 'R'), 0x0154),
   (('\'', 'S'), 0x015a), (('\'', 'U'), 0x00da), (('\'', 'Y'), 0x00dd), (('\'', 'Z'), 0x0179),
   (('\'', 'a'), 0x00e1), (('\'', 'c'), 0x0107), (('\'', 'e'), 0x00e9), (('\'', 'i'), 0x00ed),
   (('\'', 'l'), 0x013a), (('\'', 'n'), 0x0144), (('\'', 'o'), 0x00f3), (('\'', 'r'), 0x0155),
   (('\'', 's'), 0x015b), (('\'', 'u'), 0x00fa), (('\'', 'y'), 0x00fd), (('\'', 'z'), 0x017a),
   (('"', 'A'), 0x00c4), (('"', 'E'), 0x00cb), (('"', 'I'), 0x00cf), (('"', 'O'), 0x00d6),
   (('"', 'U'), 0x00dc), (('"', 'Y'), 0x0178), (('"', 'a'), 0x00e4), (('"', 'e'), 0x00eb),
   (('"', 'i'), 0x00ef), (('"', 'o'), 0x00f6), (('"', 'u'), 0x00fc), (('"', 'y'), 0x00ff),
   (('.', 'A'), 0x0226), (('.', 'C'), 0x010a), (('.', 'E'), 0x0116), (('.', 'G'), 0x0120),
   (('.', 'I'), 0x0130), (('.', 'O'), 0x022e), (('.', 'Z'), 0x017b), (('.', 'a'), 0x0227),
   (('.', 'c'), 0x010b), (('.', 'e'), 0x0117), (('.', 'g'), 0x0121), (('.', 'o'), 0x022f),
   (('.', 'z'), 0x017c), (('=', 'A'), 0x0100), (('=', 'E'), 0x0112), (('=', 'I'), 0x012a),
   (('=', 'O'), 0x014c), (('=', 'U'), 0x016a), (('=', 'Y'), 0x0232), (('=', 'a'), 0x0101),
   (('=', 'e'), 0x0113), (('=', 'i'), 0x012b), (('=', 'o'), 0x014d), (('=', 'u'), 0x016b),
   (('=', 'y'), 0x0233), (('^', 'A'), 0x00c2), (('^', 'C'), 0x0108), (('^', 'E'), 0x00ca),
   (('^', 'G'), 0x011c), (('^', 'H'), 0x0124), (('^', 'I'), 0x00ce), (('^', 'J'), 0x0134),
   (('^', 'O'), 0x00d4), (('^', 'S'), 0x015c), (('^', 'U'), 0x00db), (('^', 'W'), 0x0174),
   (('^', 'Y'), 0x0176), (('^', 'a'), 0x00e2), (('^', 'c'), 0x0109), (('^', 'e'), 0x00ea),
   (('^', 'g'), 0x011d), (('^', 'h'), 0x0125), (('^', 'i'), 0x00ee), (('^', 'j'), 0x0135),
   (('^', 'o'), 0x00f4), (('^', 's'), 0x015d), (('^', 'u'), 0x00fb), (('^', 'w'), 0x0175),
   (('^', 'y'), 0x0177), (('`', 'A'), 0x00c0), (('`', 'E'), 0x00c8), (('`', 'I'), 0x00cc),
   (('`', 'O'), 0x00d2), (('`', 'U'), 0x00d9), (('`', 'a'), 0x00e0), (('`', 'e'), 0x00e8),
   (('`', 'i'), 0x00ec), (('`', 'o'), 0x00f2), (('`', 'u'), 0x00f9), (('~', 'A'), 0x00c3),
   (('~', 'I'), 0x0128), (('~', 'N'), 0x00d1), (('~', 'O'), 0x00d5), (('~', 'U'), 0x0168),
   (('~', 'a'), 0x00e3), (('~', 'i'), 0x0129), (('~', 'n'), 0x00f1), (('~', 'o'), 0x00f5),
   (('~', 'u'), 0x0169),
   (('H', 'O'), 0x0150), (('H', 'U'), 0x0170), (('H', 'o'), 0x0151), (('H', 'u'), 0x0171),
   (('c', 'C'), 0x00c7), (('c', 'E'), 0x0228),
   (('c', 'G'), 0x0122), (('c', 'K'), 0x0136), (('c', 'L'), 0x013b), (('c', 'N'), 0x0145),
   (('c', 'R'), 0x0156), (('c', 'S'), 0x015e), (('c', 'T'), 0x0162), (('c', 'c'), 0x00e7),
   (('c', 'e'), 0x0229), (('c', 'g'), 0x0123), (('c', 'k'), 0x0137), (('c', 'l'), 0x013c),
   (('c', 'n'), 0x0146), (('c', 'r'), 0x0157), (('c', 's'), 0x015f), (('c', 't'), 0x0163),
   (('k', 'A'), 0x0104), (('k', 'E'), 0x0118), (('k', 'I'), 0x012e), (('k', 'O'), 0x01ea),
   (('k', 'U'), 0x0172), (('k', 'a'), 0x0105), (('k', 'e'), 0x0119), (('k', 'i'), 0x012f),
   (('k', 'o'), 0x01eb), (('k', 'u'), 0x0173), (('r', 'A'), 0x00c5), (('r', 'U'), 0x016e),
   (('r', 'a'), 0x00e5), (('r', 'u'), 0x016f), (('u', 'A'), 0x0102), (('u', 'E'), 0x0114),
   (('u', 'G'), 0x011e), (('u', 'I'), 0x012c), (('u', 'O'), 0x014e), (('u', 'U'), 0x016c),
   (('u', 'a'), 0x0103), (('u', 'e'), 0x0115), (('u', 'g'), 0x011f),
   (('u', 'i'), 0x012d), (('u', 'o'), 0x014f), (('u', 'u'), 0x016d),
   (('v', 'A'), 0x01cd), (('v', 'C'), 0x010c), (('v', 'D'), 0x010e),
   (('v', 'E'), 0x011a), (('v', 'G'), 0x01e6), (('v', 'H'), 0x021e), (('v', 'I'), 0x01cf),
   (('v', 'K'), 0x01e8), (('v', 'L'), 0x013d), (('v', 'N'), 0x0147), (('v', 'O'), 0x01d1),
   (('v', 'R'), 0x0158), (('v', 'S'), 0x0160), (('v', 'T'), 0x0164), (('v', 'U'), 0x01d3),
   (('v', 'Z'), 0x017d), (('v', 'a'), 0x01ce), (('v', 'c'), 0x010d), (('v', 'd'), 0x010f),
   (('v', 'e'), 0x011b), (('v', 'g'), 0x01e7), (('v', 'h'), 0x021f), (('v', 'i'), 0x01d0),
   (('v', 'k'), 0x01e9), (('v', 'l'), 0x013e), (('v', 'n'), 0x0148), (('v', 'o'), 0x01d2),
   (('v', 'r'), 0x0159), (('v', 's'), 0x0161), (('v', 't'), 0x0165), (('v', 'u'), 0x01d4),
   (('v', 'z'), 0x017e)]

/-- The `textlet` dict of tex2utf.py (insertion order preserved: the
generated alternation tries the keys in this order). -/
def textlet : List (List Char × Nat) :=
  [(['A', 'A'], 0x00c5), (['A', 'E'], 0x00c6), (['D', 'H'], 0x00d0), (['D', 'J'], 0x0110),
   (['E', 'T', 'H'], 0x00d0), (['L'], 0x0141), (['N', 'G'], 0x014a), (['O'], 0x00d8),
   (['o', 'e'], 0x0153), (['O', 'E'], 0x0152), (['T', 'H'], 0x00de), (['a', 'a'], 0x00e5),
   (['a', 'e'], 0x00e6),
   (['d', 'h'], 0x00f0), (['d', 'j'], 0x0111), (['e', 't', 'h'], 0x00f0), (['i'], 0x0131),
   (['l'], 0x0142), (['n', 'g'], 0x014b), (['o'], 0x00f8), (['s', 's'], 0x00df),
   (['t', 'h'], 0x00fe)]

/-- The `textgreek` dict of tex2utf.py, in source order. -/
def textgreek : List (List Char × Nat) :=
  [("Gamma".data, 0x0393), ("Delta".data, 0x0394), ("Theta".data, 0x0398),
   ("Lambda".data, 0x039b), ("Xi".data, 0x039E), ("Pi".data, 0x03a0),
   ("Sigma".data, 0x03a3), ("Upsilon".data, 0x03a5), ("Phi".data, 0x03a6),
   ("Psi".data, 0x03a8), ("Omega".data, 0x03a9),
   ("alpha".data, 0x03b1), ("beta".data, 0x03b2), ("gamma".data, 0x03b3),
   ("delta".data, 0x03b4), ("epsilon".data, 0x03b5), ("zeta".data, 0x03b6),
   ("eta".data, 0x03b7), ("theta".data, 0x03b8), ("iota".data, 0x03b9),
   ("kappa".data, 0x03ba), ("lambda".data, 0x03bb), ("mu".data, 0x03bc),
   ("nu".data, 0x03bd), ("xi".data, 0x03be), ("omicron".data, 0x03bf),
   ("pi".data, 0x03c0), ("rho".data, 0x03c1), ("varsigma".data, 0x03c2),
   ("sigma".data, 0x03c3), ("tau".data, 0x03c4), ("upsion".data, 0x03c5),
   ("varphi".data, 0x03C6), ("phi".data, 0x03D5),
   ("chi".data, 0x03c7), ("psi".data, 0x03c8), ("omega".data, 0x03c9)]

/-- The `textsym` dict of tex2utf.py, in source order. -/
def textsym : List (List Char × Nat) :=
  [(['P'], 0x00b6), (['S'], 0x00a7), ("copyright".data, 0x00a9),
   ("guillemotleft".data, 0x00ab), ("guillemotright".data, 0x00bb),
   ("pounds".data, 0x00a3), ("dag".data, 0x2020), ("ddag".data, 0x2021),
   ("div".data, 0x00f7), ("deg".data, 0x00b0)]

/-!  ## `_p_to_match` pattern semantics

`_p_to_match(tbl)` compiles `({)?\\(k1|k2|...)(\b|(?=_))(?(1)}|(\\(?= )| |{}|)?)`.
At a match position this resolves deterministically to:
* brace form: `{`, `\`, a key that is immediately followed by `}`;
* bare form: `\`, the first key (in dict order) that is a literal prefix and
  whose following character is not alphanumeric; then at most one of
  `\`-before-space (consuming the `\` only), a single space, or `{}`.
-/

/-- Consume the optional tail `(\\(?= )| |{}|)?` after a bare-form key. -/
def tailConsume : List Char → List Char
  | '\\' :: ' ' :: rest => ' ' :: rest
  | ' ' :: rest => rest
  | '{' :: '}' :: rest => rest
  | cs => cs

/-- Find the first key of the table matching at this position
(`brace = true` when the match started with `{\`). -/
def keyLookup (tbl : List (List Char × Nat)) (cs : List Char) (brace : Bool) :
    Option (Nat × List Char) :=
  match tbl with
  | [] => none
  | (k, n) :: t =>
    match dropPre k cs with
    | some rest =>
      if brace then
        match rest with
        | '}' :: r2 => some (n, r2)
        | _ => keyLookup t cs brace
      else
        if boundaryOk rest then some (n, tailConsume rest)
        else keyLookup t cs brace
    | none => keyLookup t cs brace

/-- One match attempt of a `_p_to_match` pattern at the head of `cs`. -/
def matchKeyAt (tbl : List (List Char × Nat)) (cs : List Char) :
    Option (Nat × List Char) :=
  match cs with
  | '{' :: '\\' :: rest => keyLookup tbl rest true
  | '\\' :: rest => keyLookup tbl rest false
  | _ => none

/-!  ## Generic global-substitution scanner

Every `re.sub` pass of tex2utf.py is an instance of the same shape: walk the
string left to right; wherever the pattern matches, emit its replacement and
resume after the match; otherwise copy one character.  `scanF` is that shape,
parameterized by the head-match function of the pass.  The wrapper `scanAll`
passes the string length as fuel; since each head match consumes at least two
characters, the fuel never runs out before the string does. -/

def scanF (hd : List Char → Option (List Char × List Char)) :
    Nat → List Char → List Char
  | 0, cs => cs
  | _ + 1, [] => []
  | f + 1, c :: rest =>
    match hd (c :: rest) with
    | some (out, rest') => out ++ scanF hd f rest'
    | none => c :: scanF hd f rest

def scanAll (hd : List Char → Option (List Char × List Char))
    (cs : List Char) : List Char :=
  scanF hd cs.length cs

/-- A head-match of a `_p_to_match` pattern, as replacement plus rest. -/
def keyHead (tbl : List (List Char × Nat)) (cs : List Char) :
    Option (List Char × List Char) :=
  (matchKeyAt tbl cs).map (fun v => ([Char.ofNat v.1], v.2))

/-- `pattern.sub(repl, s)` for a `_p_to_match` pattern (the `textlet`,
`textgreek` and `textsym` passes). -/
def substKeys (tbl : List (List Char × Nat)) (cs : List Char) : List Char :=
  scanAll (keyHead tbl) cs

/-- `texch2UTF` of tex2utf.py: look up a two-character accent key; on a
miss, strip the non-word characters (`re.sub(r'[^\w]+', '', acc)`). -/
def texch2UTF (a c : Char) : List Char :=
  match (accents.lookup (a, c)) with
  | some n => [Char.ofNat n]
  | none => List.filter isWordChar [a, c]

/-- The class `['`^"~=.uvH]` of the dotless-i/j pass. -/
def isDotlessAccent (c : Char) : Bool :=
  c = '\'' || c = '`' || c = '^' || c = '"' || c = '~' || c = '=' || c = '.'
    || c = 'u' || c = 'v' || c = 'H'

/-- The class `['`^"~=.]` of the non-letter-prefixed accent passes. -/
def isAccentMark (c : Char) : Bool :=
  c = '\'' || c = '`' || c = '^' || c = '"' || c = '~' || c = '=' || c = '.'

/-- The class `[Hckoruv]` of the letter-prefixed accent pass. -/
def isLetterAccent (c : Char) : Bool :=
  c = 'H' || c = 'c' || c = 'k' || c = 'o' || c = 'r' || c = 'u' || c = 'v'

/-- Head match of pass 1 of `tex2utf`:
`re.sub(r"/(\\['`\^\"\~\=\.uvH])\{\\([ij])\}", r"\g<1>\{\g<2>\}", tex)`.
Note the pattern begins with a literal `/` (a leftover of the Perl `s///`
syntax), and the replacement template keeps `\{` and `\}` verbatim since
Python leaves unknown non-letter escapes alone. -/
def dotlessHead : List Char → Option (List Char × List Char)
  | '/' :: '\\' :: a :: '{' :: '\\' :: c :: '}' :: rest =>
    if isDotlessAccent a && (c = 'i' || c = 'j') then
      some (['\\', a, '\\', '{', c, '\\', '}'], rest)
    else none
  | _ => none

def dotless (cs : List Char) : List Char := scanAll dotlessHead cs

/-- Head match of `re.sub(r'\{\\j\}|\\j\s', 'j', utf)` (the `\s` is
consumed by the match). -/
def jdropHead : List Char → Option (List Char × List Char)
  | '{' :: '\\' :: 'j' :: '}' :: rest => some (['j'], rest)
  | '\\' :: 'j' :: c :: rest =>
    if isPySpace c then some (['j'], rest) else none
  | _ => none

def jdrop (cs : List Char) : List Char := scanAll jdropHead cs

/-- Head match of `re.sub(r'\\([\'`^"~=.][a-zA-Z])', texch2UTF, utf)`. -/
def accent1Head : List Char → Option (List Char × List Char)
  | '\\' :: a :: c :: rest =>
    if isAccentMark a && isAsciiLetter c then some (texch2UTF a c, rest)
    else none
  | _ => none

def accent1 (cs : List Char) : List Char := scanAll accent1Head cs

/-- Head match of `re.sub(r'\\([\'`^"~=.])\{([a-zA-Z])\}', texch2UTF, utf)`. -/
def accent2Head : List Char → Option (List Char × List Char)
  | '\\' :: a :: '{' :: c :: '}' :: rest =>
    if isAccentMark a && isAsciiLetter c then some (texch2UTF a c, rest)
    else none
  | _ => none

def accent2 (cs : List Char) : List Char := scanAll accent2Head cs

/-- Head match of `re.sub(r'\\([Hckoruv])\{([a-zA-Z])\}', texch2UTF, utf)`. -/
def accent3Head : List Char → Option (List Char × List Char)
  | '\\' :: a :: '{' :: c :: '}' :: rest =>
    if isLetterAccent a && isAsciiLetter c then some (texch2UTF a c, rest)
    else none
  | _ => none

def accent3 (cs : List Char) : List Char := scanAll accent3Head cs

/-- Head match of `re.sub(r'\\t{([^\}])\}', r'\g<1>', utf)`. -/
def tdropHead : List Char → Option (List Char × List Char)
  | '\\' :: 't' :: '{' :: c :: '}' :: rest =>
    if c ≠ '}' then some ([c], rest) else none
  | _ => none

def tdrop (cs : List Char) : List Char := scanAll tdropHead cs

/-!  ## The double-brace collapsing loop -/

/-- The body of a `\{\{([^\}]*)\}\}` match after the opening `{{`: a
brace-free run followed by `}}`.  Returns the captured run and the
remainder. -/
def braceScan : List Char → Option (List Char × List Char)
  | [] => none
  | c :: rest =>
    if c = '}' then
      if rest.head? = some '}' then some ([], rest.tail) else none
    else (braceScan rest).map (fun p => (c :: p.1, p.2))

/-- A `\{\{([^\}]*)\}\}` match attempt at the head of the string. -/
def braceHead (cs : List Char) : Option (List Char × List Char) :=
  match cs with
  | c :: d :: rest2 =>
    if c = '{' then if d = '{' then braceScan rest2 else none else none
  | _ => none

/-- `braceHead` with its replacement text `{` captured-run `}`. -/
def braceRepl (cs : List Char) : Option (List Char × List Char) :=
  (braceHead cs).map (fun v => ('{' :: v.1 ++ ['}'], v.2))

/-- `re.sub(r'\{\{([^\}]*)\}\}', r'{\g<1>}', utf)` (one global pass;
non-overlapping matches, scanning resumes after each match). -/
def braceSub (cs : List Char) : List Char :=
  scanAll braceRepl cs

/-- Test of `re.search(r'\{\{([^\}]*)\}\}', utf)`: a match exists at some
position. -/
def hasDoubleBrace : List Char → Bool
  | [] => false
  | c :: rest => (braceHead (c :: rest)).isSome || hasDoubleBrace rest

/-- The `while re.search(...): utf = re.sub(...)` loop of `tex2utf`
(fuelled; the wrapper passes the string length, which bounds the number of
iterations since each substitution shortens the string). -/
def braceLoopF : Nat → List Char → List Char
  | 0, cs => cs
  | f + 1, cs => if hasDoubleBrace cs then braceLoopF f (braceSub cs) else cs

def braceLoop (cs : List Char) : List Char :=
  braceLoopF cs.length cs

/-- `tex2utf(tex, greek)` of tex2utf.py, as the composite of its passes in
source order. -/
def tex2utf (tex : List Char) (greek : Bool := true) : List Char :=
  let utf := dotless tex
  let utf := substKeys textlet utf
  let utf := if greek then substKeys textgreek utf else utf
  let utf := substKeys textsym utf
  let utf := jdrop utf
  let utf := braceLoop utf
  let utf := accent1 utf
  let utf := accent2 utf
  let utf := accent3 utf
  tdrop utf


/-!  ## authors.py: `split_authors`

The tokenizer.  `re.split(r'(\(|\))', authors)` with empty pieces removed is
`splitParens`; the depth-tracking accumulation loop is `blockStep`; the
per-block normalization splits name regions on comma/colon separators.
All strings reaching the splitting patterns are whitespace-collapsed first,
so they are newline-free; `$` is modelled as end-of-string throughout. -/

/-- `re.split(r'(\(|\))', authors)` with `''` pieces filtered out: maximal
paren-free runs and single-character `(`/`)` pieces, in order. -/
def splitParensAux : List Char → List Char → List (List Char)
  | acc, [] => if acc = [] then [] else [acc.reverse]
  | acc, c :: rest =>
    if c = '(' ∨ c = ')' then
      (if acc = [] then [] else [acc.reverse]) ++ [c] :: splitParensAux [] rest
    else splitParensAux (c :: acc) rest

def splitParens (cs : List Char) : List (List Char) := splitParensAux [] cs

/-- State of the paren-depth block accumulation loop of `split_authors`:
finished blocks, the current accumulator `c`, and the (possibly negative)
depth. -/
structure BlockSt where
  blocks : List (List Char)
  c : List Char
  depth : Int

/-- One iteration of the `for bit in aus` loop of `split_authors`. -/
def blockStep (st : BlockSt) (bit : List Char) : BlockSt :=
  if bit = ['('] then
    let d := st.depth + 1
    if d = 1 then ⟨st.blocks ++ [st.c], ['('], d⟩
    else ⟨st.blocks, st.c ++ bit, d⟩
  else if bit = [')'] then
    let d := st.depth - 1
    let c2 := st.c ++ bit
    if d = 0 then ⟨st.blocks ++ [c2], [], d⟩
    else ⟨st.blocks, c2, d⟩
  else ⟨st.blocks, st.c ++ bit, st.depth⟩

/-- The block-building stage of `split_authors` (everything before the
per-block normalization). -/
def blocksOf (authors : List Char) : List (List Char) :=
  let aus := splitParens authors
  if aus.length = 1 then [authors]
  else
    let st := aus.foldl blockStep ⟨[], [], 0⟩
    st.blocks ++ (if st.c = [] then [] else [st.c])

/-- Head match of `re.sub(r'\s+', ' ', block)`: a maximal whitespace run
becomes a single space. -/
def wsRunHead : List Char → Option (List Char × List Char)
  | c :: rest =>
    if isPySpace c then some ([' '], rest.dropWhile isPySpace) else none
  | _ => none

def wsCollapse (cs : List Char) : List Char := scanAll wsRunHead cs

/-- Head match of `re.sub(r',?\s+(and|\&)\s', ',', block)` (case-sensitive,
as in the source).  The `\s+` run is maximal since `and`/`&` start with a
non-whitespace character, and a failed optional comma cannot be rescued by
backtracking because `\s+` cannot match the comma itself. -/
def andCore (u : List Char) : Option (List Char) :=
  match u with
  | d :: _ =>
    if isPySpace d then
      let run := u.dropWhile isPySpace
      match dropPre "and".data run with
      | some (w :: r) => if isPySpace w then some r else none
      | some [] => none
      | none =>
        match run with
        | '&' :: w :: r => if isPySpace w then some r else none
        | _ => none
    else none
  | [] => none

def andHead : List Char → Option (List Char × List Char)
  | ',' :: rest => (andCore rest).map (fun r => ([','], r))
  | cs => (andCore cs).map (fun r => ([','], r))

def andSub (cs : List Char) : List Char := scanAll andHead cs

/-- `re.split(r'(,|:)\s*', block)`: pieces and single-character separator
tokens, the whitespace after a separator consumed (fuelled; the wrapper
passes `length + 1`, which suffices since every step consumes a
character). -/
def sepSplitF : Nat → List Char → List Char → List (List Char)
  | 0, acc, cs => [acc.reverse ++ cs]
  | _ + 1, acc, [] => [acc.reverse]
  | f + 1, acc, c :: rest =>
    if c = ',' ∨ c = ':' then
      acc.reverse :: [c] :: sepSplitF f [] (rest.dropWhile isPySpace)
    else sepSplitF f (c :: acc) rest

def sepSplit (cs : List Char) : List (List Char) :=
  sepSplitF (cs.length + 1) [] cs

/-- Python `str.rstrip().lstrip()` (ASCII whitespace). -/
def pyStrip (cs : List Char) : List Char :=
  ((cs.dropWhile isPySpace).reverse.dropWhile isPySpace).reverse

/-- The `for name in names` loop over one name region: empty pieces are
skipped, the rest are stripped and kept when non-empty (separators are kept
as their own tokens). -/
def nameTokens (block : List Char) : List (List Char) :=
  (sepSplit (andSub block)).foldr (fun n acc =>
    if n = [] then acc
    else
      let n2 := pyStrip n
      if n2 = [] then acc else n2 :: acc) []

/-- The `for block in blocks` loop of `split_authors`: whitespace-collapse;
a block starting with `(` is a comment token, a name region is split into
name/separator tokens. -/
def listxOf (blocks : List (List Char)) : List (List Char) :=
  blocks.foldr (fun b acc =>
    let b2 := wsCollapse b
    if b2.head? = some '(' then b2 :: acc
    else nameTokens b2 ++ acc) []

/-- `re.match(r'^(Jr\.?|Sr\.?\[IV]{2,})$', p)`: as written (the `[` is
escaped and the alternation bar before it is missing), the second branch
demands a literal `[IV` and two or more `]`, so in practice only `Jr` and
`Jr.` match. -/
def srOdd (p : List Char) : Bool :=
  match dropPre "Sr".data p with
  | none => false
  | some r =>
    let r2 := match r with
      | '.' :: t => t
      | _ => r
    match dropPre "[IV".data r2 with
    | none => false
    | some bs => decide (2 ≤ bs.length) && bs.all (· = ']')

def suffixTok (p : List Char) : Bool :=
  p = "Jr".data || p = "Jr.".data || srOdd p

/-- One step of the suffix-recombination cleanup: a suffix token preceded by
exactly a `,` token and a part that is not the literal token `)` is merged
as `"{}{} {}".format(last, separator, p)`.  (`re.match(r'\)$', parts[-2])`
is anchored at the start, so it only matches the one-character token `)`;
tokens are newline-free here.) -/
def recombStep (parts : List (List Char)) (p : List Char) : List (List Char) :=
  if suffixTok p ∧ 2 ≤ parts.length ∧ parts.getLast? = some [','] ∧
      parts.dropLast.getLast? ≠ some [')'] then
    parts.dropLast.dropLast ++ [(parts.dropLast.getLast?.getD []) ++ ',' :: ' ' :: p]
  else parts ++ [p]

/-- `split_authors(authors)` of authors.py. -/
def split_authors (authors : List Char) : List (List Char) :=
  if authors = [] then []
  else (listxOf (blocksOf authors)).foldl recombStep []

/-!  ## authors.py: `_parse_author_affil_split` and friends -/

/-- An author entry `[keyname, firstnames, suffix, affil...]`, kept as the
flat list of strings the source uses. -/
abbrev Entry := List (List Char)

/-- `_remove_double_commas`. -/
def remove_double_commas (items : List (List Char)) : List (List Char) :=
  (items.foldl (fun st pt =>
    if pt = [','] ∧ st.2 = [','] then st
    else (st.1 ++ [pt], pt)) (([] : List (List Char)), ([] : List Char))).1

/-- The two `dropwhile` dances removing `,` tokens at the back and front. -/
def dropEndCommas (names : List (List Char)) : List (List Char) :=
  ((names.reverse.dropWhile (· = [','])).reverse).dropWhile (· = [','])

/-- `re.match('^[^](,]', x)`: the class is `[^](,]` (a literal `]` right
after the negation), so a token is kept iff it is non-empty and does not
start with `]`, `(` or `,`. -/
def keepTok : List Char → Bool
  | [] => false
  | c :: _ => !(c = ']' || c = '(' || c = ',')

/-- Head match of `re.sub(r'\s\s+', ' ', name)`: a maximal whitespace run
of length at least two becomes a single space (a single whitespace
character is left alone). -/
def wsSquashHead : List Char → Option (List Char × List Char)
  | c :: d :: rest =>
    if isPySpace c && isPySpace d then some ([' '], rest.dropWhile isPySpace)
    else none
  | _ => none

/-- `re.sub(r'(?<!\\)\.(\S)', r'. \g<1>', name)`: insert a space after a
dot not preceded by a backslash and followed by non-whitespace (scanner
threading the previous character for the lookbehind). -/
def dotSpaceF : Nat → Option Char → List Char → List Char
  | 0, _, cs => cs
  | f + 1, prev, cs =>
    match cs with
    | '.' :: d :: rest =>
      if !(isPySpace d) && prev ≠ some '\\' then
        '.' :: ' ' :: d :: dotSpaceF f (some d) rest
      else '.' :: dotSpaceF f (some '.') (d :: rest)
    | [] => []
    | c :: rest => c :: dotSpaceF f (some c) rest

/-- `_tidy_name`. -/
def tidy_name (name : List Char) : List Char :=
  dotSpaceF (scanAll wsSquashHead name).length none (scanAll wsSquashHead name)

/-- `re.match(r'^\s*et\.?\s+al\.?\s*', n, re.IGNORECASE)` (a prefix match;
the trailing `\.?\s*` always succeeds, and a failed optional dot cannot be
rescued since `\s+` cannot match the dot). -/
def etAlB (cs : List Char) : Bool :=
  let afterWs : List Char → Bool := fun w =>
    match w with
    | d :: _ =>
      isPySpace d &&
        (match dropPreCi "al".data (w.dropWhile isPySpace) with
         | some _ => true
         | none => false)
    | [] => false
  let u := cs.dropWhile isPySpace
  match dropPreCi "et".data u with
  | none => false
  | some v =>
    match v with
    | '.' :: v2 => afterWs v2
    | _ => afterWs v

/-- The class `[a-z0-9\s]` with `re.IGNORECASE`. -/
def collabClass (c : Char) : Bool :=
  ('a' ≤ c.toLower && c.toLower ≤ 'z') || c.isDigit || isPySpace c

/-- Case-insensitive keyword test for `(collaboration|group|team)` at this
position; returns the keyword length. -/
def kwHit (cs : List Char) : Option Nat :=
  match dropPreCi "collaboration".data cs with
  | some _ => some 13
  | none =>
    match dropPreCi "group".data cs with
    | some _ => some 5
    | none =>
      match dropPreCi "team".data cs with
      | some _ => some 4
      | none => none

/-- Walk the class run of `([a-z0-9\s]+\s+(collaboration|group|team))`
from a fixed start, remembering the end position of the latest keyword
whose preceding character is whitespace and which is at offset at least 2
(one class character plus one `\s+` character); the greedy `[a-z0-9\s]+`
picks the latest such keyword. -/
def collabWalk : List Char → Char → Nat → Option Nat → Option Nat
  | [], _, _, best => best
  | c :: rest, prev, pos, best =>
    if collabClass c then
      let best2 :=
        match (if isPySpace prev ∧ 2 ≤ pos then kwHit (c :: rest) else none) with
        | some L => some (pos + L)
        | none => best
      collabWalk rest c (pos + 1) best2
    else best

/-- Match attempt of the collaboration pattern at the start of `u`
(group 1 runs from the start through the keyword). -/
def collabAt : List Char → Option Nat
  | [] => none
  | c :: rest => if collabClass c then collabWalk rest c 1 none else none

/-- `re.search` of the collaboration pattern: leftmost matching start. -/
def collabSearch : List Char → Option (List Char)
  | [] => none
  | c :: rest =>
    match collabAt (c :: rest) with
    | some n => some ((c :: rest).take n)
    | none => collabSearch rest

/-- After a collaboration match the loop also swallows a following bare
comma or colon token. -/
def collabSwallow (rest : List (List Char)) : List (List Char) :=
  match rest with
  | s :: t => if s = [','] ∨ s = [':'] then t else rest
  | [] => []

/-- The `while` loop of `_collaboration_at_start` (fuelled by the list
length plus one; each iteration removes at least one token).  Returns the
remaining names, the collaboration entries, and the back-propagation
boundary. -/
def collabLoopF : Nat → List (List Char) → List (List Char) × List Entry × Nat
  | 0, names => (names, [], 0)
  | _ + 1, [] => ([], [], 0)
  | f + 1, n0 :: rest =>
    match collabSearch n0 with
    | none => (n0 :: rest, [], 0)
    | some g =>
      let q := collabLoopF f (collabSwallow rest)
      (q.1, [g, [], []] :: q.2.1, q.2.2 + 1)

/-- `_collaboration_at_start`. -/
def collaboration_at_start (names : List (List Char)) :
    List (List Char) × List Entry × Nat :=
  collabLoopF (names.length + 1) names

/-- Python `dict` insertion: overwrite in place, else append. -/
def dictInsert (k v : List Char) :
    List (List Char × List Char) → List (List Char × List Char)
  | [] => [(k, v)]
  | (k0, v0) :: t => if k0 = k then (k0, v) :: t else (k0, v0) :: dictInsert k v t

/-- Match of `re.search(r'\(\s*\((.*)$', line)` at the start: `(`, optional
whitespace, `(`, then group 1 up to the end (`.` cannot cross a newline, so
a start whose remainder contains an inner newline fails). -/
def doubleParenAt (cs : List Char) : Option (List Char) :=
  match cs with
  | '(' :: rest =>
    match rest.dropWhile isPySpace with
    | '(' :: v =>
      let body := v.takeWhile (fun c => !(c = '\n'))
      let tl := v.drop body.length
      if tl = [] ∨ tl = ['\n'] then some body else none
    | _ => none
  | _ => none

def doubleParenSearch : List Char → Option (List Char)
  | [] => none
  | c :: rest =>
    match doubleParenAt (c :: rest) with
    | some b => some b
    | none => doubleParenSearch rest

/-- `re.sub(r'\s*\)\s*$', '', s)`: remove the final `)` together with the
whitespace around it when the string ends that way; otherwise unchanged. -/
def stripTrailParen (s : List Char) : List Char :=
  match s.reverse.dropWhile isPySpace with
  | ')' :: r2 => (r2.dropWhile isPySpace).reverse
  | _ => s

/-- `re.match(r'^(\d+)\)\s*(\S.*\S)\s*$', affil)`: a digit run, `)`,
optional whitespace, then at least two characters from the first to the
last non-whitespace (fragments here are newline-free, coming from a
newline-free group). -/
def enumFrag (frag : List Char) : Option (List Char × List Char) :=
  let ds := frag.takeWhile Char.isDigit
  if ds = [] then none
  else
    match frag.drop ds.length with
    | ')' :: r2 =>
      let v := ((r2.dropWhile isPySpace).reverse.dropWhile isPySpace).reverse
      if 2 ≤ v.length then some (ds, v) else none
    | _ => none

/-- `re.sub(r'[\.,\s]*$', '', t)`. -/
def stripTrailPunct (s : List Char) : List Char :=
  (s.reverse.dropWhile (fun c => c = '.' || c = ',' || isPySpace c)).reverse

/-- `_enum_collaboration_at_end`. -/
def enum_collaboration_at_end (author_line : List Char) :
    List (List Char × List Char) :=
  match doubleParenSearch author_line with
  | none => []
  | some g =>
    let affils := stripTrailParen g
    (affils.splitOn '(').foldl (fun m frag =>
      match enumFrag frag with
      | some q => dictInsert q.1 (stripTrailPunct q.2) m
      | none => m) []

/-!  ## authors.py: the name-splitting patterns

Each pattern has the shape `^(.*)\s+ TAIL $`.  The greedy `(.*)` makes the
engine try the whitespace runs of the token from the right; within a run,
`\s+` must end at the run's end (the tails begin with non-whitespace), and
`(.*)` keeps all of the run but its last character.  `lastWsSplits` lists,
left to right, the pairs (group 1, text after the run) for each run; the
matchers try them right to left.  Tokens here are newline-free (their
whitespace was collapsed by `split_authors`). -/

def lastWsSplits : List Char → List (List Char × List Char)
  | [] => []
  | c :: rest =>
    let later := (lastWsSplits rest).map (fun q => (c :: q.1, q.2))
    if isPySpace c &&
        (match rest with
         | [] => true
         | d :: _ => !(isPySpace d)) then
      ([], rest) :: later
    else later

def prefixList : List (List Char) :=
  ["van", "der", "de", "la", "von", "del", "della", "da", "mac", "ter",
   "dem", "di", "vaziri"].map String.data

def suffixList : List (List Char) :=
  ["I", "II", "III", "IV", "V", "Sr", "Jr", "Sr.", "Jr."].map String.data

/-- Case-insensitive equality of strings. -/
def ciEq (a b : List Char) : Bool :=
  a.map Char.toLower = b.map Char.toLower

/-- Tail `(\S+)$` of the name-name pattern. -/
def tailNN (post : List Char) : Option (List Char) :=
  if !post.isEmpty && post.all (fun c => !(isPySpace c)) then some post else none

/-- Tail `(\S+)\s(I|II|III|IV|V|Sr|Jr|Sr\.|Jr\.)$` of name-name-prefix:
the `\S+` run is maximal, then a single whitespace, then the rest must
equal one of the alternatives (case-insensitively). -/
def tailNNS (post : List Char) : Option (List Char × List Char) :=
  let m := post.takeWhile (fun c => !(isPySpace c))
  if m = [] then none
  else
    match post.drop m.length with
    | w :: rest2 =>
      if isPySpace w && suffixList.any (fun s => ciEq s rest2) then
        some (m, rest2)
      else none
    | [] => none

/-- Tail `(P)\s(\S+)$` of name-prefix-name: the alternatives are tried in
source order; a prefix whose continuation fails is backtracked past. -/
def tailNPN (post : List Char) : Option (List Char × List Char) :=
  prefixList.findSome? (fun p =>
    match dropPreCi p post with
    | some (w :: r2) =>
      if isPySpace w then (tailNN r2).map (fun W => (post.take p.length, W))
      else none
    | _ => none)

/-- Tail `(P)\s(P)\s(\S+)$` of double-prefix. -/
def tailDP (post : List Char) : Option (List Char × List Char × List Char) :=
  prefixList.findSome? (fun p1 =>
    match dropPreCi p1 post with
    | some (w :: r2) =>
      if isPySpace w then
        (prefixList.findSome? (fun p2 =>
          match dropPreCi p2 r2 with
          | some (w2 :: r4) =>
            if isPySpace w2 then
              (tailNN r4).map (fun W => (r2.take p2.length, W))
            else none
          | _ => none)).map (fun q => (post.take p1.length, q.1, q.2))
      else none
    | _ => none)

/-- Try a `^(.*)\s+ TAIL $` pattern on a token: whitespace runs from the
right, group 1 keeps the run except its last character. -/
def matchSplit {α : Type} (tail : List Char → Option α) (tok : List Char) :
    Option (List Char × α) :=
  (lastWsSplits tok).reverse.findSome? (fun q =>
    (tail q.2).map (fun v => (q.1, v)))

/-- The pattern dispatch of `_parse_author_affil_split`: double-prefix,
name-prefix-name, name-name-prefix, name-name, in order, first match wins;
otherwise `[name, '', '']`. -/
def author_entry_of (name : List Char) : Entry :=
  match matchSplit tailDP name with
  | some (a, q) => [q.1 ++ ' ' :: (q.2.1 ++ ' ' :: q.2.2), a, []]
  | none =>
    match matchSplit tailNPN name with
    | some (a, q) => [q.1 ++ ' ' :: q.2, a, []]
    | none =>
      match matchSplit tailNNS name with
      | some (a, q) => [q.1, a, q.2]
      | none =>
        match matchSplit tailNN name with
        | some (a, w) => [w, a, []]
        | none => [name, [], []]

/-!  ## authors.py: `_add_affiliation` -/

/-- Match, at the start of `cs`, of the compiled form of
`re.escape(name).replace(' ', 's*') + r'\s*\(([^\(\)]+)'` under
`re.IGNORECASE`.  Under Python 3.7+ escaping each space of the name becomes
`\ `, whose space the `.replace` turns into `\s*`; every other character is
matched literally (case-insensitively).  Returns the captured `[^()]+`. -/
def matchNameAt : List Char → List Char → Option (List Char)
  | [], cs =>
    match cs.dropWhile isPySpace with
    | '(' :: v =>
      let cap := v.takeWhile (fun c => !(c = '(' || c = ')'))
      if cap = [] then none else some cap
    | _ => none
  | nc :: nrest, cs =>
    if nc = ' ' then matchNameAt nrest (cs.dropWhile isPySpace)
    else
      match cs with
      | d :: drest =>
        if d.toLower = nc.toLower then matchNameAt nrest drest else none
      | [] => none

/-- `re.search` of the name-affiliation pattern: leftmost match. -/
def searchNameParen (name : List Char) : List Char → Option (List Char)
  | [] => matchNameAt name []
  | c :: rest =>
    match matchNameAt name (c :: rest) with
    | some g => some g
    | none => searchNameParen name rest

/-- Head match of `re.sub(r'(&|and)/,', ',', affils, re.IGNORECASE)` (the
pattern demands a literal `/` before the comma, as in the source). -/
def andSlashHead : List Char → Option (List Char × List Char)
  | '&' :: '/' :: ',' :: rest => some ([','], rest)
  | a :: n :: d :: '/' :: ',' :: rest =>
    if a.toLower = 'a' && n.toLower = 'n' && d.toLower = 'd' then
      some ([','], rest)
    else none
  | _ => none

/-- `re.match(r'^[\d,\s]+$', affils)`. -/
def isDigitsCommasWs (cs : List Char) : Bool :=
  !cs.isEmpty && cs.all (fun c => c.isDigit || c = ',' || isPySpace c)

/-- `_add_affiliation`. -/
def add_affiliation (author_line : List Char)
    (enumaffils : List (List Char × List Char))
    (author_entry : Entry) (name : List Char) : Entry :=
  match searchNameParen name author_line with
  | none => author_entry
  | some g =>
    let affils := pyStrip g
    let affils := scanAll andSlashHead affils
    if isDigitsCommasWs affils then
      author_entry ++
        ((affils.splitOn ',').filterMap (fun a => enumaffils.lookup a))
    else author_entry ++ [affils]

/-!  ## authors.py: assembling the parse -/

/-- The name list of `_parse_author_affil_split` after tokenization, comma
cleanup, the keep filter, `_tidy_name`, and the et-al filter. -/
def namesStage (author_line : List Char) : List (List Char) :=
  let names := split_authors author_line
  let names := remove_double_commas names
  let names := dropEndCommas names
  let names := (names.filter keepTok).map tidy_name
  names.filter (fun n => !(etAlB n))

/-- The per-name entries (pattern split plus affiliation search) for a
given enumerated-affiliation map, as in the `for name in names` loop. -/
def authorListWith (author_line : List Char)
    (enumaffils : List (List Char × List Char))
    (names : List (List Char)) : List Entry :=
  names.map (fun n => add_affiliation author_line enumaffils (author_entry_of n) n)

/-- `_parse_author_affil_split`. -/
def parse_author_affil_split (author_line : List Char) : List Entry × Nat :=
  if author_line = [] then ([], 0)
  else if split_authors author_line = [] then ([], 0)
  else
    let enumaffils := enum_collaboration_at_end author_line
    let q := collaboration_at_start (namesStage author_line)
    (q.2.1 ++ authorListWith author_line enumaffils q.1, q.2.2)

/-- The right-to-left walk of `_parse_author_affil_back_propagate`, on the
reversed suffix, threading the last entry seen with affiliations. -/
def backPropRev : List Entry → List (List Char) → List Entry
  | [], _ => []
  | e :: rest, la =>
    if 3 < e.length then e :: backPropRev rest e
    else if la ≠ [] then (e ++ la.drop 3) :: backPropRev rest la
    else e :: backPropRev rest la

/-- `_parse_author_affil_back_propagate`. -/
def parse_author_affil_back_propagate (author_list : List Entry)
    (back_prop : Nat) : List Entry :=
  author_list.take back_prop ++
    (backPropRev ((author_list.drop back_prop).reverse) []).reverse

/-- `parse_author_affil`. -/
def parse_author_affil (authors : List Char) : List Entry :=
  let q := parse_author_affil_split authors
  parse_author_affil_back_propagate q.1 q.2

/-- `parse_author_affil_utf`. -/
def parse_author_affil_utf (authors : List Char) : List Entry :=
  if authors = [] then []
  else (parse_author_affil authors).map (List.map (fun s => tex2utf s true))

/-!  ## A multi-word name and its whitespace-loosened occurrence (claim C2) -/

/-- A split name with spaces: first word plus (run, word) pairs, the name
text itself using single spaces. -/
def nameOf (w0 : List Char) (ps : List (List Char × List Char)) : List Char :=
  w0 ++ (ps.map (fun p => ' ' :: p.2)).flatten

/-- The same name as it occurs in the author line, each single space
replaced by the corresponding whitespace run of the pair. -/
def lineOf (w0 : List Char) (ps : List (List Char × List Char)) : List Char :=
  w0 ++ (ps.map (fun p => p.1 ++ p.2)).flatten

/-- The test input of the idempotence counterexample: open brace, open
brace, backslash, quote, open brace, e, close brace, x, close brace, close
brace. -/
def bracedAccentInput : List Char :=
  ['{', '{', '\\', '\'', '{', 'e', '}', 'x', '}', '}']

/-- The test input of the dotless-repair bug: backslash, quote, open brace,
backslash, i, close brace. -/
def dotlessAccentInput : List Char :=
  ['\\', '\'', '{', '\\', 'i', '}']

/-- Substring test (used to state when the `and`-connective rewriting of
`split_authors` cannot fire). -/
def hasSubstr (pat cs : List Char) : Bool :=
  match cs with
  | [] => pat.isEmpty
  | c :: rest => pat.isPrefixOf (c :: rest) || hasSubstr pat rest

/-! ## Lemmas about the double-brace machinery -/

theorem braceScan_eq :
    ∀ cs p r : List Char, braceScan cs = some (p, r) → cs = p ++ '}' :: '}' :: r := by
  intro cs
  induction cs with
  | nil => intro p r h; simp [braceScan] at h
  | cons c rest ih =>
    intro p r h
    by_cases hc : c = '}'
    · subst hc
      rw [braceScan, if_pos rfl] at h
      by_cases h2 : rest.head? = some '}'
      · rw [if_pos h2] at h
        simp only [Option.some.injEq, Prod.mk.injEq] at h
        obtain ⟨h1, h3⟩ := h
        cases rest with
        | nil => simp at h2
        | cons d rest' =>
          simp at h2
          subst h2
          simp at h3
          simp [← h1, ← h3]
      · rw [if_neg h2] at h
        cases h
    · rw [braceScan, if_neg hc] at h
      rcases h₀ : braceScan rest with _ | ⟨p', r'⟩
      · rw [h₀] at h; simp at h
      · rw [h₀] at h
        simp only [Option.map_some', Option.some.injEq, Prod.mk.injEq] at h
        obtain ⟨h1, h2⟩ := h
        have hr := ih p' r' h₀
        rw [← h1, hr, h2]
        simp

theorem braceHead_eq (cs p r : List Char) (h : braceHead cs = some (p, r)) :
    cs = '{' :: '{' :: (p ++ '}' :: '}' :: r) := by
  match cs with
  | [] => simp [braceHead] at h
  | [c] => simp [braceHead] at h
  | c :: d :: rest2 =>
    rw [braceHead] at h
    by_cases hc : c = '{'
    · rw [if_pos hc] at h
      by_cases hd : d = '{'
      · rw [if_pos hd] at h
        have := braceScan_eq rest2 p r h
        rw [hc, hd, this]
      · rw [if_neg hd] at h; cases h
    · rw [if_neg hc] at h; cases h

theorem scanF_braceRepl_le (f : Nat) :
    ∀ cs : List Char, (scanF braceRepl f cs).length ≤ cs.length := by
  induction f with
  | zero => intro cs; simp [scanF]
  | succ f ih =>
    intro cs
    match cs with
    | [] => simp [scanF]
    | c :: rest =>
      rw [scanF]
      rcases h₀ : braceRepl (c :: rest) with _ | ⟨out, r⟩
      · simpa using ih rest
      · rcases hh : braceHead (c :: rest) with _ | ⟨p, r'⟩
        · simp [braceRepl, hh] at h₀
        · have h2 := braceHead_eq _ _ _ hh
          simp [braceRepl, hh] at h₀
          obtain ⟨ho, hr⟩ := h₀
          have hlen : (c :: rest).length = p.length + r'.length + 4 := by
            rw [h2]; simp; omega
          have := ih r
          simp [← ho, ← hr] at *
          omega

theorem braceSub_length_lt (cs : List Char) (h : hasDoubleBrace cs = true) :
    (braceSub cs).length < cs.length := by
  suffices hs : ∀ f : Nat, ∀ cs : List Char, cs.length ≤ f →
      hasDoubleBrace cs = true → (scanF braceRepl f cs).length < cs.length by
    exact hs cs.length cs le_rfl h
  intro f
  induction f with
  | zero =>
    intro cs hf hm
    match cs with
    | [] => simp [hasDoubleBrace] at hm
    | c :: rest => simp at hf
  | succ f ih =>
    intro cs hf hm
    match cs with
    | [] => simp [hasDoubleBrace] at hm
    | c :: rest =>
      rw [scanF]
      rcases hh : braceHead (c :: rest) with _ | ⟨p, r'⟩
      · have hr : braceRepl (c :: rest) = none := by simp [braceRepl, hh]
        rw [hr]
        rw [hasDoubleBrace, hh] at hm
        simp at hm
        have := ih rest (by simp at hf; omega) hm
        simpa using this
      · have hr : braceRepl (c :: rest) = some ('{' :: p ++ ['}'], r') := by
          simp [braceRepl, hh]
        rw [hr]
        have h2 := braceHead_eq _ _ _ hh
        have hlen : (c :: rest).length = p.length + r'.length + 4 := by
          rw [h2]; simp; omega
        have := scanF_braceRepl_le f r'
        simp at *
        omega

theorem braceLoopF_no (f : Nat) :
    ∀ cs : List Char, cs.length ≤ f → hasDoubleBrace (braceLoopF f cs) = false := by
  induction f with
  | zero =>
    intro cs hf
    match cs with
    | [] => simp [braceLoopF, hasDoubleBrace]
    | c :: rest => simp at hf
  | succ f ih =>
    intro cs hf
    rw [braceLoopF]
    by_cases hm : hasDoubleBrace cs = true
    · rw [if_pos hm]
      exact ih (braceSub cs) (by have := braceSub_length_lt cs hm; omega)
    · rw [if_neg hm]
      exact Bool.not_eq_true _ ▸ eq_false_of_ne_true hm

/-- `braceLoop` stops at a string with no remaining `{{...}}` match. -/
theorem braceLoop_no (cs : List Char) : hasDoubleBrace (braceLoop cs) = false :=
  braceLoopF_no cs.length cs le_rfl


/-! ## Scanner passes leave backslash-free text unchanged -/

theorem scanF_id (hd : List Char → Option (List Char × List Char))
    (hns : ∀ c rest, hd (c :: rest) ≠ none → '\\' ∈ c :: rest) :
    ∀ (f : Nat) (cs : List Char), '\\' ∉ cs → scanF hd f cs = cs := by
  intro f
  induction f with
  | zero => intro cs _; rfl
  | succ f ih =>
    intro cs h
    match cs with
    | [] => rfl
    | c :: rest =>
      rcases h₀ : hd (c :: rest) with _ | v
      · rw [scanF, h₀]
        rw [ih rest (fun hm => h (List.mem_cons_of_mem c hm))]
      · exact absurd (hns c rest (by rw [h₀]; simp)) h

theorem dotlessHead_bs (c : Char) (rest : List Char)
    (h : dotlessHead (c :: rest) ≠ none) : '\\' ∈ c :: rest := by
  unfold dotlessHead at h
  split at h
  · simp_all
  · simp at h

theorem matchKeyAt_bs (tbl : List (List Char × Nat)) (c : Char) (rest : List Char)
    (h : matchKeyAt tbl (c :: rest) ≠ none) : '\\' ∈ c :: rest := by
  unfold matchKeyAt at h
  split at h
  · simp_all
  · simp_all
  · simp at h

theorem keyHead_bs (tbl : List (List Char × Nat)) (c : Char) (rest : List Char)
    (h : keyHead tbl (c :: rest) ≠ none) : '\\' ∈ c :: rest := by
  refine matchKeyAt_bs tbl c rest (fun he => ?_)
  rw [keyHead, he] at h
  simp at h

theorem jdropHead_bs (c : Char) (rest : List Char)
    (h : jdropHead (c :: rest) ≠ none) : '\\' ∈ c :: rest := by
  unfold jdropHead at h
  split at h
  · simp_all
  · simp_all
  · simp at h

theorem accent1Head_bs (c : Char) (rest : List Char)
    (h : accent1Head (c :: rest) ≠ none) : '\\' ∈ c :: rest := by
  unfold accent1Head at h
  split at h
  · simp_all
  · simp at h

theorem accent2Head_bs (c : Char) (rest : List Char)
    (h : accent2Head (c :: rest) ≠ none) : '\\' ∈ c :: rest := by
  unfold accent2Head at h
  split at h
  · simp_all
  · simp at h

theorem accent3Head_bs (c : Char) (rest : List Char)
    (h : accent3Head (c :: rest) ≠ none) : '\\' ∈ c :: rest := by
  unfold accent3Head at h
  split at h
  · simp_all
  · simp at h

theorem tdropHead_bs (c : Char) (rest : List Char)
    (h : tdropHead (c :: rest) ≠ none) : '\\' ∈ c :: rest := by
  unfold tdropHead at h
  split at h
  · simp_all
  · simp at h

/-! ## The brace passes preserve backslash-freeness -/

theorem scanF_braceRepl_noBS (f : Nat) :
    ∀ cs : List Char, '\\' ∉ cs → '\\' ∉ scanF braceRepl f cs := by
  induction f with
  | zero => intro cs h; exact h
  | succ f ih =>
    intro cs h
    match cs with
    | [] => simp [scanF]
    | c :: rest =>
      rcases hh : braceHead (c :: rest) with _ | ⟨p, r⟩
      · have hr : braceRepl (c :: rest) = none := by simp [braceRepl, hh]
        rw [scanF, hr]
        intro hm
        rcases List.mem_cons.1 hm with h1 | h2
        · exact h (by rw [h1]; exact List.mem_cons_self _ _)
        · exact ih rest (fun hx => h (List.mem_cons_of_mem c hx)) h2
      · have hr : braceRepl (c :: rest) = some ('{' :: p ++ ['}'], r) := by
          simp [braceRepl, hh]
        rw [scanF, hr]
        have h2 := braceHead_eq _ _ _ hh
        have hp : '\\' ∉ p := by
          intro hx
          exact h (by rw [h2]; simp [hx])
        have hr' : '\\' ∉ r := by
          intro hx
          exact h (by rw [h2]; simp [hx])
        intro hm
        have hsr := ih r hr'
        simp [hp, hsr] at hm

theorem braceSub_noBS (cs : List Char) (h : '\\' ∉ cs) : '\\' ∉ braceSub cs :=
  scanF_braceRepl_noBS cs.length cs h

theorem braceLoopF_noBS (f : Nat) :
    ∀ cs : List Char, '\\' ∉ cs → '\\' ∉ braceLoopF f cs := by
  induction f with
  | zero => intro cs h; exact h
  | succ f ih =>
    intro cs h
    rw [braceLoopF]
    by_cases hm : hasDoubleBrace cs = true
    · rw [if_pos hm]
      exact ih (braceSub cs) (braceSub_noBS cs h)
    · rw [if_neg hm]
      exact h

theorem braceLoop_noBS (cs : List Char) (h : '\\' ∉ cs) : '\\' ∉ braceLoop cs :=
  braceLoopF_noBS cs.length cs h

theorem braceLoopF_stop (f : Nat) (cs : List Char) (h : hasDoubleBrace cs = false) :
    braceLoopF f cs = cs := by
  cases f with
  | zero => rfl
  | succ f => rw [braceLoopF, h]; simp

/-- On a backslash-free string every pass of `tex2utf` except the
double-brace collapse is the identity, so `tex2utf` is that collapse. -/
theorem tex2utf_noBS (cs : List Char) (g : Bool) (h : '\\' ∉ cs) :
    tex2utf cs g = braceLoop cs := by
  show tdrop (accent3 (accent2 (accent1 (braceLoop (jdrop (substKeys textsym
      (if g then substKeys textgreek (substKeys textlet (dotless cs))
       else substKeys textlet (dotless cs)))))))) = braceLoop cs
  rw [show dotless cs = cs from scanF_id _ dotlessHead_bs _ cs h]
  rw [show substKeys textlet cs = cs from scanF_id _ (keyHead_bs textlet) _ cs h]
  rw [show substKeys textgreek cs = cs from scanF_id _ (keyHead_bs textgreek) _ cs h]
  rw [ite_self]
  rw [show substKeys textsym cs = cs from scanF_id _ (keyHead_bs textsym) _ cs h]
  rw [show jdrop cs = cs from scanF_id _ jdropHead_bs _ cs h]
  have hy : '\\' ∉ braceLoop cs := braceLoop_noBS cs h
  rw [show accent1 (braceLoop cs) = braceLoop cs from scanF_id _ accent1Head_bs _ _ hy]
  rw [show accent2 (braceLoop cs) = braceLoop cs from scanF_id _ accent2Head_bs _ _ hy]
  rw [show accent3 (braceLoop cs) = braceLoop cs from scanF_id _ accent3Head_bs _ _ hy]
  exact scanF_id _ tdropHead_bs _ _ hy

/-- `braceLoop` is idempotent: its output has no `{{...}}` match left. -/
theorem braceLoop_idem (cs : List Char) : braceLoop (braceLoop cs) = braceLoop cs :=
  braceLoopF_stop _ _ (braceLoop_no cs)

/-! ## Claim C5 -/

/-- C5 (amended): for every string that contains no backslash (hence no TeX
escape), `tex2utf` is idempotent at it, for either value of the greek flag:
only the double-brace collapse can act, and it reaches a fixed point. -/
theorem tex2utf_idem_plain (cs : List Char) (g : Bool) (h : '\\' ∉ cs) :
    tex2utf (tex2utf cs g) g = tex2utf cs g := by
  rw [tex2utf_noBS cs g h]
  rw [tex2utf_noBS (braceLoop cs) g (braceLoop_noBS cs h)]
  exact braceLoop_idem cs

/-- C5 (witness for the amended theorem at `"{{a}}"`). -/
theorem tex2utf_idem_plain_witness :
    tex2utf (tex2utf ("{{a}}".data) true) true = tex2utf ("{{a}}".data) true :=
  tex2utf_idem_plain ("{{a}}".data) true (by decide)

/-- C5 (counterexample to the claim as stated): the parenthetical form
"applying tex2utf twice to any input gives the same result as applying it
once, once the intermediate contains no more escapes" is false.  For
`"{{\'{e}x}}"` the intermediate `tex2utf` output `"{{éx}}"` contains no
backslash, yet a second application collapses the doubled braces and yields
`"{éx}"`: the double-brace loop runs before the accent passes, whose
substitutions can re-create a `{{...}}` pattern. -/
theorem tex2utf_idem_counterexample :
    ('\\' ∉ tex2utf bracedAccentInput true) ∧
      tex2utf (tex2utf bracedAccentInput true) true ≠
        tex2utf bracedAccentInput true := by
  constructor
  · decide
  · decide

/-! ## Claim C4 -/

/-- C4 (counterexample): `tex2utf("\xyz123")`, with `xyz` absent from every
table, does not return a stripped fallback string: no pattern of any pass
matches a `\x...` escape, so the input comes back unchanged, backslash
included. -/
theorem tex2utf_unknown_escape_counterexample :
    tex2utf ("\\xyz123".data) true = "\\xyz123".data ∧
      '\\' ∈ tex2utf ("\\xyz123".data) true := by
  constructor
  · rfl
  · decide

/-- C4 (amended): an unrecognized TeX escape never raises (`tex2utf` is a
total function); an escape such as `\xyz123` that matches none of the
substitution patterns is returned unchanged, and the punctuation-stripping
fallback of `texch2UTF` applies only to accent-shaped escapes whose
two-character key is missing from the `accents` table, as in
`tex2utf("\'q") = "q"`. -/
theorem tex2utf_unknown_escape :
    tex2utf ("\\xyz123".data) true = "\\xyz123".data ∧
      tex2utf ("\\'q".data) true = "q".data ∧
      texch2UTF '\'' 'q' = "q".data := by
  refine ⟨rfl, rfl, rfl⟩

/-! ## Claim C9 -/

/-- C9 (code bug): the dotless-i/j repair pass never rewrites an accented
`\i`: its regex begins with a leftover Perl `/`, so `dotless` leaves
`"\'{\i}"` unchanged; the textlet pass then substitutes dotless `ı` for
`{\i}` and the accent pass can no longer apply (the final output keeps the
raw `\'` and the dotless `ı` instead of producing `í`). -/
theorem tex2utf_dotless_repair_bug :
    dotless dotlessAccentInput = dotlessAccentInput ∧
      tex2utf dotlessAccentInput true = ['\\', '\'', 'ı'] ∧
      tex2utf dotlessAccentInput true ≠ "í".data := by
  refine ⟨rfl, rfl, by decide⟩


/-! ## Claim C1: tokenizer reconstruction -/

theorem splitParensAux_join :
    ∀ (cs acc : List Char), (splitParensAux acc cs).flatten = acc.reverse ++ cs := by
  intro cs
  induction cs with
  | nil =>
    intro acc
    by_cases h : acc = []
    · simp [splitParensAux, h]
    · simp [splitParensAux, h]
  | cons c rest ih =>
    intro acc
    by_cases hp : c = '(' ∨ c = ')'
    · rw [splitParensAux, if_pos hp]
      by_cases h : acc = []
      · simp [h, ih]
      · simp [h, ih]
    · rw [splitParensAux, if_neg hp]
      rw [ih (c :: acc)]
      simp

theorem splitParens_join (cs : List Char) : (splitParens cs).flatten = cs := by
  rw [splitParens, splitParensAux_join]
  simp

theorem blockStep_inv (st : BlockSt) (bit : List Char) :
    (blockStep st bit).blocks.flatten ++ (blockStep st bit).c =
      st.blocks.flatten ++ st.c ++ bit := by
  rw [blockStep]
  by_cases h1 : bit = ['(']
  · rw [if_pos h1]
    by_cases h2 : st.depth + 1 = 1
    · simp [h2, h1]
    · simp [h2, h1]
  · rw [if_neg h1]
    by_cases h2 : bit = [')']
    · rw [if_pos h2]
      by_cases h3 : st.depth - 1 = 0
      · simp [h3, h2]
      · simp [h3, h2]
    · simp [h2]

theorem foldl_blockStep_inv :
    ∀ (aus : List (List Char)) (st : BlockSt),
      (aus.foldl blockStep st).blocks.flatten ++ (aus.foldl blockStep st).c =
        st.blocks.flatten ++ st.c ++ aus.flatten := by
  intro aus
  induction aus with
  | nil => intro st; simp
  | cons bit rest ih =>
    intro st
    rw [List.foldl_cons, ih (blockStep st bit), blockStep_inv]
    simp

/-- C1 (amended): concatenating the blocks of `split_authors`' parenthesis
stage, in order, reproduces the original author line exactly.  (The final
token list of `split_authors` does not satisfy the claim even modulo
whitespace collapsing, because the name regions rewrite `and`/`&`
connectives to commas and drop the whitespace around comma/colon
separators; see the counterexample.) -/
theorem blocks_reconstruct (authors : List Char) :
    (blocksOf authors).flatten = authors := by
  rw [blocksOf]
  by_cases h1 : (splitParens authors).length = 1
  · simp [h1]
  · simp only [h1, if_false]
    have h2 := foldl_blockStep_inv (splitParens authors) ⟨[], [], 0⟩
    simp at h2
    rw [splitParens_join] at h2
    by_cases h3 : ((splitParens authors).foldl blockStep ⟨[], [], 0⟩).c = []
    · simp [h3]
      rw [h3] at h2
      simpa using h2
    · simp [h3]
      exact h2

/-- C1 (counterexample): for the author line `"A and B"` the tokenizer's
output is `["A", ",", "B"]`; its concatenation is `"A,B"`, which differs
from the input even after collapsing whitespace runs on both sides (the
`" and "` connective was rewritten to a comma). -/
theorem split_authors_reconstruct_counterexample :
    split_authors ("A and B".data) = ["A".data, ",".data, "B".data] ∧
      (split_authors ("A and B".data)).flatten = "A,B".data ∧
      wsCollapse ((split_authors ("A and B".data)).flatten) ≠
        wsCollapse ("A and B".data) := by
  refine ⟨rfl, rfl, by decide⟩

/-! ## Claim C8: suffix recombination -/

/-- C8 (code bug): the cleanup pass recombines `"Smith, Jr."` into a single
token, but leaves `"Smith, Sr."` (and roman-numeral suffixes) as three
tokens: the suffix regex `^(Jr\.?|Sr\.?\[IV]{2,})$` is missing the
alternation bar before `[IV]` and escapes the `[`, so only `Jr`/`Jr.`
can match. -/
theorem suffix_recombination_bug :
    split_authors ("Smith, Jr.".data) = ["Smith, Jr.".data] ∧
      split_authors ("Smith, Sr.".data) =
        ["Smith".data, ",".data, "Sr.".data] ∧
      split_authors ("Smith, III".data) =
        ["Smith".data, ",".data, "III".data] ∧
      suffixTok ("Sr.".data) = false ∧ suffixTok ("III".data) = false := by
  refine ⟨rfl, rfl, rfl, rfl, rfl⟩

/-! ## Claim C3: enumerated affiliations with back-propagation -/

/-- C3: parsing `"A.B. First, C.D. Second (1), E.F. Third, G.H. Forth
(2,3)"` against the enumerated map `{1: Inst1, 2: Inst2, 3: Inst3}` (the
name tokenization, the collaboration extraction, `_add_affiliation` per
name, then `_parse_author_affil_back_propagate`) yields First and Second
with affiliations `["Inst1"]` (Inst1 back-propagated to First) and Third
and Forth with `["Inst2", "Inst3"]`. -/
theorem enumerated_affiliation_scenario :
    (let line := "A.B. First, C.D. Second (1), E.F. Third, G.H. Forth (2,3)".data
     let m := [("1".data, "Inst1".data), ("2".data, "Inst2".data),
               ("3".data, "Inst3".data)]
     let q := collaboration_at_start (namesStage line)
     parse_author_affil_back_propagate
       (q.2.1 ++ authorListWith line m q.1) q.2.2) =
    [["First".data, "A. B.".data, [], "Inst1".data],
     ["Second".data, "C. D.".data, [], "Inst1".data],
     ["Third".data, "E. F.".data, [], "Inst2".data, "Inst3".data],
     ["Forth".data, "G. H.".data, [], "Inst2".data, "Inst3".data]] := by
  rfl

/-! ## Claim C10: et-al tokens are discarded -/

/-- C10: a name token matching the et-al pattern (optional whitespace,
`et` with optional dot, whitespace, `al`, case-insensitively) never
survives the name-stage filter of `_parse_author_affil_split`, so it
produces no author record; an input consisting only of such a token parses
to the empty sequence. -/
theorem et_al_discarded :
    (∀ (line tok : List Char), tok ∈ namesStage line → etAlB tok = false) ∧
      parse_author_affil_utf ("et al.".data) = [] ∧
      parse_author_affil_utf ("A. Smith, et al.".data) =
        [["Smith".data, "A.".data, []]] := by
  refine ⟨?_, rfl, rfl⟩
  intro line tok htok
  rw [namesStage] at htok
  simp only [List.mem_filter] at htok
  simpa using htok.2

/-- C10 (witness): the survivor token of `"A. Smith, et al."` does not
match the et-al pattern. -/
theorem et_al_discarded_witness :
    etAlB ("A. Smith".data) = false :=
  et_al_discarded.1 ("A. Smith, et al.".data) ("A. Smith".data) (by decide)

/-! ## Claim C2: the affiliation binder finds the parenthetical -/

theorem matchNameAt_literal :
    ∀ (w n cs : List Char), (∀ ch ∈ w, isPySpace ch = false) →
      matchNameAt (w ++ n) (w ++ cs) = matchNameAt n cs := by
  intro w
  induction w with
  | nil => intro n cs _; rfl
  | cons ch w' ih =>
    intro n cs hw
    have hch : isPySpace ch = false := hw ch (List.mem_cons_self _ _)
    have hne : ch ≠ ' ' := by
      intro he
      rw [he] at hch
      simp [isPySpace] at hch
    show matchNameAt (ch :: (w' ++ n)) (ch :: (w' ++ cs)) = _
    rw [matchNameAt, if_neg hne]
    show (if ch.toLower = ch.toLower then matchNameAt (w' ++ n) (w' ++ cs) else none) =
      matchNameAt n cs
    rw [if_pos rfl]
    exact ih n cs (fun c hc => hw c (List.mem_cons_of_mem _ hc))

theorem dropWhile_ws_append (rn cs : List Char)
    (hr : ∀ ch ∈ rn, isPySpace ch = true)
    (hcs : ∀ d, cs.head? = some d → isPySpace d = false) :
    (rn ++ cs).dropWhile isPySpace = cs := by
  induction rn with
  | nil =>
    match cs with
    | [] => rfl
    | d :: cs' =>
      have := hcs d rfl
      simp [List.dropWhile_cons, this]
  | cons ch rn' ih =>
    have hch := hr ch (List.mem_cons_self _ _)
    simp only [List.cons_append, List.dropWhile_cons, hch, if_true]
    exact ih (fun c hc => hr c (List.mem_cons_of_mem _ hc))

theorem matchNameAt_run (rn n cs : List Char)
    (hr : ∀ ch ∈ rn, isPySpace ch = true)
    (hcs : ∀ d, cs.head? = some d → isPySpace d = false) :
    matchNameAt (' ' :: n) (rn ++ cs) = matchNameAt n cs := by
  show matchNameAt n ((rn ++ cs).dropWhile isPySpace) = matchNameAt n cs
  rw [dropWhile_ws_append rn cs hr hcs]

theorem matchName_expand :
    ∀ (ps : List (List Char × List Char)) (w0 t : List Char),
      (∀ ch ∈ w0, isPySpace ch = false) →
      (∀ p ∈ ps, (∀ ch ∈ p.1, isPySpace ch = true) ∧ p.2 ≠ [] ∧
        ∀ ch ∈ p.2, isPySpace ch = false) →
      matchNameAt (nameOf w0 ps) (lineOf w0 ps ++ t) = matchNameAt [] t := by
  intro ps
  induction ps with
  | nil =>
    intro w0 t hw0 _
    have h1 : nameOf w0 [] = w0 ++ [] := rfl
    have h2 : lineOf w0 [] = w0 ++ [] := rfl
    rw [h1, h2]
    simpa using matchNameAt_literal w0 [] t hw0
  | cons p ps' ih =>
    intro w0 t hw0 hp
    obtain ⟨r, w⟩ := p
    obtain ⟨hr, hwne, hwc⟩ := hp (r, w) (List.mem_cons_self _ _)
    have h1 : nameOf w0 ((r, w) :: ps') = w0 ++ (' ' :: nameOf w ps') := by
      rw [nameOf, nameOf]
      simp
    have h2 : lineOf w0 ((r, w) :: ps') ++ t = w0 ++ (r ++ (lineOf w ps' ++ t)) := by
      rw [lineOf, lineOf]
      simp
    rw [h1, h2, matchNameAt_literal w0 _ _ hw0]
    have hd : ∀ d, (lineOf w ps' ++ t).head? = some d → isPySpace d = false := by
      intro d hdd
      match w, hwne with
      | wh :: w', _ =>
        have : (lineOf (wh :: w') ps' ++ t).head? = some wh := by
          rw [lineOf]
          simp
        rw [this] at hdd
        injection hdd with h3
        exact h3 ▸ hwc wh (List.mem_cons_self _ _)
    rw [matchNameAt_run r _ _ hr hd]
    exact ih w t hwc (fun q hq => hp q (List.mem_cons_of_mem _ hq))

theorem takeWhile_nonparen (c : List Char) (rest : List Char)
    (hcp : ∀ ch ∈ c, ch ≠ '(' ∧ ch ≠ ')') :
    (c ++ ')' :: rest).takeWhile (fun ch => !(ch = '(' || ch = ')')) = c := by
  induction c with
  | nil => simp [List.takeWhile_cons]
  | cons ch c' ih =>
    have h := hcp ch (List.mem_cons_self _ _)
    have ih2 := ih (fun x hx => hcp x (List.mem_cons_of_mem _ hx))
    have hb : (!(decide (ch = '(') || decide (ch = ')'))) = true := by
      simp [h.1, h.2]
    simp only [List.cons_append, List.takeWhile_cons, hb, if_true]
    rw [ih2]

/-- The capture of the name-affiliation pattern once the name itself has
been consumed: optional whitespace, `(`, then the maximal non-empty run of
non-parenthesis characters. -/
theorem matchNameAt_tail (r2 body : List Char)
    (hr2 : ∀ ch ∈ r2, isPySpace ch = true)
    (hbody : body.takeWhile (fun ch => !(ch = '(' || ch = ')')) ≠ []) :
    matchNameAt [] (r2 ++ '(' :: body) =
      some (body.takeWhile (fun ch => !(ch = '(' || ch = ')'))) := by
  have hdw : (r2 ++ '(' :: body).dropWhile isPySpace = '(' :: body := by
    refine dropWhile_ws_append r2 _ hr2 ?_
    intro d hd
    injection hd with h3
    rw [← h3]
    rfl
  rw [matchNameAt, hdw]
  show (if body.takeWhile (fun ch => !(ch = '(' || ch = ')')) = [] then none
    else some (body.takeWhile (fun ch => !(ch = '(' || ch = ')')))) = _
  rw [if_neg hbody]

/-- If the pattern matches at some position, `re.search` succeeds. -/
theorem searchNameParen_ex (name : List Char) :
    ∀ (cs : List Char) (i : Nat) (v : List Char),
      matchNameAt name (cs.drop i) = some v →
      ∃ g, searchNameParen name cs = some g := by
  intro cs
  induction cs with
  | nil =>
    intro i v h
    rw [List.drop_nil] at h
    exact ⟨v, by show matchNameAt name [] = some v; exact h⟩
  | cons c rest ih =>
    intro i v h
    rw [searchNameParen]
    rcases h0 : matchNameAt name (c :: rest) with _ | g
    · cases i with
      | zero =>
        rw [List.drop_zero] at h
        rw [h] at h0
        cases h0
      | succ i2 =>
        rw [List.drop_succ_cons] at h
        obtain ⟨g, hg⟩ := ih i2 v h
        exact ⟨g, hg⟩
    · exact ⟨g, rfl⟩

/-- `re.search` returns the leftmost match: if the pattern matches at
position `i` and fails at every earlier position, the search returns the
match at `i`. -/
theorem searchNameParen_first (name : List Char) :
    ∀ (cs : List Char) (i : Nat) (v : List Char),
      matchNameAt name (cs.drop i) = some v →
      (∀ j, j < i → matchNameAt name (cs.drop j) = none) →
      searchNameParen name cs = some v := by
  intro cs
  induction cs with
  | nil =>
    intro i v h _
    rw [List.drop_nil] at h
    show matchNameAt name [] = some v
    exact h
  | cons c rest ih =>
    intro i v h hfirst
    rw [searchNameParen]
    cases i with
    | zero =>
      rw [List.drop_zero] at h
      rw [h]
    | succ i2 =>
      have h0 : matchNameAt name (c :: rest) = none := by
        have := hfirst 0 (Nat.succ_pos i2)
        rwa [List.drop_zero] at this
      rw [h0]
      rw [List.drop_succ_cons] at h
      refine ih i2 v h (fun j hj => ?_)
      have := hfirst (j + 1) (Nat.succ_lt_succ hj)
      rwa [List.drop_succ_cons] at this

/-- **C2.** For every split name containing spaces (first word `w0`, then
(whitespace-run, word) pairs `ps`) and every author line in which the name
occurs — after an arbitrary prefix `pre`, with arbitrary whitespace runs in
place of its spaces, followed by optional whitespace, an opening
parenthesis, and at least one non-parenthesis character — `_add_affiliation`
finds a parenthetical: the search succeeds and the captured content is
appended, resolved through the enumerated map when it is
digits/commas/whitespace and as free text otherwise.  When the designated
occurrence is the leftmost match of the pattern (in particular whenever the
name does not also occur earlier in the line), the captured content is
exactly the first parenthetical after the name: the maximal non-parenthesis
run following its `(`. -/
theorem add_affiliation_finds
    (pre w0 : List Char) (ps : List (List Char × List Char))
    (r2 body : List Char) (enumaffils : List (List Char × List Char))
    (entry : Entry)
    (hw0c : ∀ ch ∈ w0, isPySpace ch = false)
    (hp : ∀ p ∈ ps, (∀ ch ∈ p.1, isPySpace ch = true) ∧ p.2 ≠ [] ∧
      ∀ ch ∈ p.2, isPySpace ch = false)
    (hr2 : ∀ ch ∈ r2, isPySpace ch = true)
    (hbody : body.takeWhile (fun ch => !(ch = '(' || ch = ')')) ≠ []) :
    ∃ g, searchNameParen (nameOf w0 ps)
        (pre ++ (lineOf w0 ps ++ (r2 ++ '(' :: body))) = some g ∧
      add_affiliation (pre ++ (lineOf w0 ps ++ (r2 ++ '(' :: body)))
          enumaffils entry (nameOf w0 ps) =
        (let affils := scanAll andSlashHead (pyStrip g)
         if isDigitsCommasWs affils then
           entry ++ ((affils.splitOn ',').filterMap
             (fun a => enumaffils.lookup a))
         else entry ++ [affils]) ∧
      ((∀ j, j < pre.length →
          matchNameAt (nameOf w0 ps)
            ((pre ++ (lineOf w0 ps ++ (r2 ++ '(' :: body))).drop j) = none) →
        g = body.takeWhile (fun ch => !(ch = '(' || ch = ')'))) := by
  have hm0 := matchName_expand ps w0 (r2 ++ '(' :: body) hw0c hp
  have htail := matchNameAt_tail r2 body hr2 hbody
  have hout : matchNameAt (nameOf w0 ps)
      ((pre ++ (lineOf w0 ps ++ (r2 ++ '(' :: body))).drop pre.length) =
      some (body.takeWhile (fun ch => !(ch = '(' || ch = ')'))) := by
    rw [List.drop_left]
    rw [hm0, htail]
  obtain ⟨g, hg⟩ := searchNameParen_ex (nameOf w0 ps) _ pre.length _ hout
  refine ⟨g, hg, ?_, ?_⟩
  · rw [add_affiliation, hg]
  · intro hfirst
    have hlm := searchNameParen_first (nameOf w0 ps) _ pre.length _ hout hfirst
    rw [hg] at hlm
    exact Option.some.inj hlm

/-- C2 (witness): the mid-line name `C.D. Second` in
`A.B. First, C.D. Second (1)` binds the parenthetical `1`, resolved through
the enumerated map. -/
theorem add_affiliation_finds_witness :
    add_affiliation ("A.B. First, C.D. Second (1)".data)
        [(['1'], "Inst1".data)] ["Second".data, "C.D.".data, []]
        ("C.D. Second".data) =
      ["Second".data, "C.D.".data, [], "Inst1".data] := by
  obtain ⟨g, hs, ha, hg⟩ := add_affiliation_finds
      "A.B. First, ".data "C.D.".data [([' '], "Second".data)]
      [' '] ['1', ')'] [(['1'], "Inst1".data)]
      ["Second".data, "C.D.".data, []]
      (by decide) (by decide) (by decide) (by decide)
  rw [hg (by decide)] at ha
  have hline : "A.B. First, C.D. Second (1)".data =
      "A.B. First, ".data ++ (lineOf "C.D.".data [([' '], "Second".data)] ++
        ([' '] ++ '(' :: ['1', ')'])) := by decide
  have hname : "C.D. Second".data = nameOf "C.D.".data [([' '], "Second".data)] := by
    decide
  rw [hline, hname, ha]
  decide

/-! ## Claim C6: keynames are non-empty -/

theorem scanF_ne_nil (hd : List Char → Option (List Char × List Char))
    (hout : ∀ u out r, hd u = some (out, r) → out ≠ []) :
    ∀ (f : Nat) (cs : List Char), cs ≠ [] → scanF hd f cs ≠ [] := by
  intro f
  cases f with
  | zero => intro cs h; exact h
  | succ f =>
    intro cs h
    match cs with
    | c :: rest =>
      rw [scanF]
      rcases h₀ : hd (c :: rest) with _ | ⟨out, r⟩
      · simp
      · have := hout _ _ _ h₀
        simp [this]

theorem wsSquashHead_out :
    ∀ u out r, wsSquashHead u = some (out, r) → out ≠ [] := by
  intro u out r h
  unfold wsSquashHead at h
  split at h
  · split at h
    · simp at h
      rw [← h.1]
      simp
    · cases h
  · cases h

theorem dotSpaceF_ne_nil :
    ∀ (f : Nat) (prev : Option Char) (cs : List Char), cs ≠ [] →
      dotSpaceF f prev cs ≠ [] := by
  intro f
  cases f with
  | zero => intro prev cs h; exact h
  | succ f =>
    intro prev cs h
    rw [dotSpaceF.eq_def]
    split
    · exact h
    · split
      · split <;> simp
      · exact absurd rfl h
      · simp

theorem tidy_ne_nil (t : List Char) (h : t ≠ []) : tidy_name t ≠ [] := by
  rw [tidy_name]
  exact dotSpaceF_ne_nil _ _ _ (scanF_ne_nil wsSquashHead wsSquashHead_out _ t h)

theorem keepTok_ne_nil (t : List Char) (h : keepTok t = true) : t ≠ [] := by
  intro he
  rw [he] at h
  simp [keepTok] at h

theorem namesStage_ne_nil (line : List Char) :
    ∀ t ∈ namesStage line, t ≠ [] := by
  intro t ht
  rw [namesStage] at ht
  simp only [List.mem_filter, List.mem_map] at ht
  obtain ⟨⟨s, hs, rfl⟩, _⟩ := ht
  exact tidy_ne_nil s (keepTok_ne_nil s hs.2)

theorem tailNN_ne (post w : List Char) (h : tailNN post = some w) : w ≠ [] := by
  rw [tailNN] at h
  split at h
  · rename_i hc
    simp at h
    simp at hc
    rw [← h]
    exact hc.1
  · cases h

theorem tailNNS_ne (post : List Char) (q : List Char × List Char)
    (h : tailNNS post = some q) : q.1 ≠ [] := by
  rw [tailNNS] at h
  split at h
  · cases h
  · rename_i hm
    split at h
    · split at h
      · simp only [Option.some.injEq] at h
        rw [← h]
        simpa using hm
      · cases h
    · cases h

theorem matchSplit_some {α : Type} (tail : List Char → Option α)
    (tok a : List Char) (v : α) (h : matchSplit tail tok = some (a, v)) :
    ∃ post, tail post = some v := by
  rw [matchSplit] at h
  obtain ⟨q, _, hq⟩ := List.exists_of_findSome?_eq_some h
  rcases h₀ : tail q.2 with _ | v'
  · rw [h₀] at hq; cases hq
  · rw [h₀] at hq
    simp at hq
    exact ⟨q.2, by rw [h₀, hq.2]⟩

theorem author_entry_of_spec (n : List Char) (h : n ≠ []) :
    author_entry_of n ≠ [] ∧ (author_entry_of n).headD [] ≠ [] := by
  rw [author_entry_of]
  rcases h1 : matchSplit tailDP n with _ | ⟨a, q⟩
  · rcases h2 : matchSplit tailNPN n with _ | ⟨a, q⟩
    · rcases h3 : matchSplit tailNNS n with _ | ⟨a, q⟩
      · rcases h4 : matchSplit tailNN n with _ | ⟨a, w⟩
        · simp [h]
        · obtain ⟨post, hp⟩ := matchSplit_some tailNN n a w h4
          simp [tailNN_ne post w hp]
      · obtain ⟨post, hp⟩ := matchSplit_some tailNNS n a q h3
        simp [tailNNS_ne post q hp]
    · simp
  · simp

theorem headD_append (e : Entry) (t : List (List Char)) (h : e ≠ []) :
    (e ++ t).headD [] = e.headD [] := by
  match e, h with
  | x :: e', _ => simp

theorem add_affiliation_spec (line : List Char)
    (m : List (List Char × List Char)) (e : Entry) (n : List Char)
    (he : e ≠ []) :
    add_affiliation line m e n ≠ [] ∧
      (add_affiliation line m e n).headD [] = e.headD [] := by
  rw [add_affiliation]
  split
  · exact ⟨he, rfl⟩
  · rename_i g hg
    have hx : (let affils := pyStrip g
        let affils := scanAll andSlashHead affils
        if isDigitsCommasWs affils = true then
          e ++ List.filterMap (fun a => List.lookup a m) (List.splitOn ',' affils)
        else e ++ [affils]) =
        e ++ (let affils := scanAll andSlashHead (pyStrip g)
          if isDigitsCommasWs affils = true then
            List.filterMap (fun a => List.lookup a m) (List.splitOn ',' affils)
          else [affils]) := by
      by_cases hd : isDigitsCommasWs (scanAll andSlashHead (pyStrip g)) = true
      · simp only [hd, if_true]
      · rw [Bool.not_eq_true] at hd
        simp only [hd, Bool.false_eq_true, if_false]
    rw [hx]
    exact ⟨by simp [he], headD_append e _ he⟩

theorem kwHit_pos (cs : List Char) (L : Nat) (h : kwHit cs = some L) : 1 ≤ L := by
  rw [kwHit] at h
  split at h
  · simp at h; omega
  · split at h
    · simp at h; omega
    · split at h
      · simp at h; omega
      · cases h

theorem collabWalk_pos :
    ∀ (u : List Char) (prev : Char) (pos : Nat) (best : Option Nat),
      (∀ m, best = some m → 1 ≤ m) →
      ∀ n, collabWalk u prev pos best = some n → 1 ≤ n := by
  intro u
  induction u with
  | nil => intro prev pos best hb n h; exact hb n h
  | cons c rest ih =>
    intro prev pos best hb n h
    rw [collabWalk] at h
    split at h
    · refine ih c (pos + 1) _ ?_ n h
      intro m hm
      split at hm
      · rename_i L hL
        split at hL
        · have := kwHit_pos _ _ hL
          simp at hm
          omega
        · cases hL
      · exact hb m hm
    · exact hb n h

theorem collabSearch_ne (u g : List Char) (h : collabSearch u = some g) :
    g ≠ [] := by
  induction u with
  | nil => simp [collabSearch] at h
  | cons c rest ih =>
    rw [collabSearch] at h
    split at h
    · rename_i n hn
      have hpos : 1 ≤ n := by
        rw [collabAt] at hn
        split at hn
        · exact collabWalk_pos _ _ _ _ (by intro m hm; cases hm) n hn
        · cases hn
      simp at h
      match n, hpos with
      | n' + 1, _ =>
        rw [← h]
        simp
    · exact ih h

theorem collabLoopF_cons (f : Nat) (n0 : List Char) (rest : List (List Char)) :
    collabLoopF (f + 1) (n0 :: rest) =
      (match collabSearch n0 with
       | none => (n0 :: rest, [], 0)
       | some g =>
         let q := collabLoopF f (collabSwallow rest)
         (q.1, [g, [], []] :: q.2.1, q.2.2 + 1)) := rfl

theorem collabSwallow_sub (rest : List (List Char)) (n : List Char)
    (h : n ∈ collabSwallow rest) : n ∈ rest := by
  cases rest with
  | nil => exact absurd h (List.not_mem_nil n)
  | cons s t =>
    rw [collabSwallow] at h
    split at h
    · exact List.mem_cons_of_mem s h
    · exact h

theorem collabLoopF_entries :
    ∀ (f : Nat) (names : List (List Char)) (e : Entry),
      e ∈ (collabLoopF f names).2.1 → ∃ g, g ≠ [] ∧ e = [g, [], []] := by
  intro f
  induction f with
  | zero => intro names e he; simp [collabLoopF] at he
  | succ f ih =>
    intro names e he
    cases names with
    | nil => simp [collabLoopF] at he
    | cons n0 rest =>
      rw [collabLoopF_cons] at he
      split at he
      · simp at he
      · rename_i g hg
        simp only [List.mem_cons] at he
        rcases he with he | he
        · exact ⟨g, collabSearch_ne n0 g hg, he⟩
        · exact ih _ e he

theorem collabLoopF_names_sub :
    ∀ (f : Nat) (names : List (List Char)) (n : List Char),
      n ∈ (collabLoopF f names).1 → n ∈ names := by
  intro f
  induction f with
  | zero => intro names n hn; simpa [collabLoopF] using hn
  | succ f ih =>
    intro names n hn
    cases names with
    | nil => simp [collabLoopF] at hn
    | cons n0 rest =>
      rw [collabLoopF_cons] at hn
      split at hn
      · exact hn
      · rename_i g hg
        exact List.mem_cons_of_mem n0 (collabSwallow_sub rest n (ih _ n hn))

theorem backPropRev_decomp :
    ∀ (l : List Entry) (la : List (List Char)) (e : Entry),
      e ∈ backPropRev l la → ∃ e0 ∈ l, ∃ t2, e = e0 ++ t2 := by
  intro l
  induction l with
  | nil => intro la e he; simp [backPropRev] at he
  | cons e0 rest ih =>
    intro la e he
    rw [backPropRev] at he
    split at he
    · rcases List.mem_cons.1 he with he | he
      · exact ⟨e0, List.mem_cons_self _ _, [], by simp [he]⟩
      · obtain ⟨e1, h1, t2, h2⟩ := ih _ e he
        exact ⟨e1, List.mem_cons_of_mem _ h1, t2, h2⟩
    · split at he
      · rcases List.mem_cons.1 he with he | he
        · exact ⟨e0, List.mem_cons_self _ _, la.drop 3, he⟩
        · obtain ⟨e1, h1, t2, h2⟩ := ih _ e he
          exact ⟨e1, List.mem_cons_of_mem _ h1, t2, h2⟩
      · rcases List.mem_cons.1 he with he | he
        · exact ⟨e0, List.mem_cons_self _ _, [], by simp [he]⟩
        · obtain ⟨e1, h1, t2, h2⟩ := ih _ e he
          exact ⟨e1, List.mem_cons_of_mem _ h1, t2, h2⟩

theorem back_propagate_decomp (l : List Entry) (bp : Nat) (e : Entry)
    (h : e ∈ parse_author_affil_back_propagate l bp) :
    ∃ e0 ∈ l, ∃ t2, e = e0 ++ t2 := by
  rw [parse_author_affil_back_propagate] at h
  rcases List.mem_append.1 h with h | h
  · exact ⟨e, List.mem_of_mem_take h, [], by simp⟩
  · rw [List.mem_reverse] at h
    obtain ⟨e0, h0, t2, h2⟩ := backPropRev_decomp _ _ _ h
    rw [List.mem_reverse] at h0
    exact ⟨e0, List.mem_of_mem_drop h0, t2, h2⟩

theorem split_entries (line : List Char) (e0 : Entry)
    (h : e0 ∈ (parse_author_affil_split line).1) :
    (∃ g, g ≠ [] ∧ e0 = [g, [], []]) ∨
      ∃ n, n ∈ namesStage line ∧
        e0 = add_affiliation line (enum_collaboration_at_end line)
          (author_entry_of n) n := by
  rw [parse_author_affil_split] at h
  split at h
  · simp at h
  · split at h
    · simp at h
    · simp only [List.mem_append] at h
      rcases h with h | h
      · exact Or.inl (collabLoopF_entries _ _ e0 h)
      · rw [authorListWith] at h
        simp only [List.mem_map] at h
        obtain ⟨n, hn, he⟩ := h
        exact Or.inr ⟨n, collabLoopF_names_sub _ _ n hn, he.symm⟩

/-- C6: every author record produced by `parse_author_affil` has a
non-empty keyname; and on a non-empty name token that no structural split
pattern matches, the entry is the whole token with empty firstnames and
suffix. -/
theorem keyname_nonempty :
    (∀ (line : List Char) (e : Entry), e ∈ parse_author_affil line →
      e.headD [] ≠ []) ∧
      (∀ t : List Char, t ≠ [] →
        matchSplit tailDP t = none → matchSplit tailNPN t = none →
        matchSplit tailNNS t = none → matchSplit tailNN t = none →
        author_entry_of t = [t, [], []]) := by
  constructor
  · intro line e he
    rw [parse_author_affil] at he
    obtain ⟨e0, he0, t2, rfl⟩ := back_propagate_decomp _ _ _ he
    have hspec : e0 ≠ [] ∧ e0.headD [] ≠ [] := by
      rcases split_entries line e0 he0 with ⟨g, hg, rfl⟩ | ⟨n, hn, rfl⟩
      · simpa using hg
      · have hne := namesStage_ne_nil line n hn
        have h1 := author_entry_of_spec n hne
        have h2 := add_affiliation_spec line (enum_collaboration_at_end line)
          (author_entry_of n) n h1.1
        exact ⟨h2.1, by rw [h2.2]; exact h1.2⟩
    rw [headD_append e0 t2 hspec.1]
    exact hspec.2
  · intro t ht h1 h2 h3 h4
    rw [author_entry_of, h1, h2, h3, h4]

/-- C6 (witness): the record parsed from `"J. Smith"` has keyname
`"Smith"`, which is non-empty. -/
theorem keyname_nonempty_witness :
    (["Smith".data, "J.".data, ([] : List Char)] : Entry).headD [] ≠ [] :=
  keyname_nonempty.1 ("J. Smith".data)
    ["Smith".data, "J.".data, []] (by decide)

/-! ## Claim C7: generic scanner and substring lemmas -/

theorem scanF_id_all (hd : List Char → Option (List Char × List Char)) :
    ∀ (f : Nat) (cs : List Char), (∀ n : Nat, hd (cs.drop n) = none) →
      scanF hd f cs = cs := by
  intro f
  induction f with
  | zero => intro cs _; rfl
  | succ f ih =>
    intro cs hall
    match cs with
    | [] => rfl
    | c :: rest =>
      have h0 := hall 0
      rw [List.drop_zero] at h0
      rw [scanF, h0]
      rw [ih rest (fun n => by
        have := hall (n + 1)
        rwa [List.drop_succ_cons] at this)]

theorem isPrefixOf_self_append :
    ∀ (p r : List Char), p.isPrefixOf (p ++ r) = true := by
  intro p
  induction p with
  | nil => intro r; simp [List.isPrefixOf]
  | cons c p' ih =>
    intro r
    show (c == c && p'.isPrefixOf (p' ++ r)) = true
    simp [ih r]

theorem hasSubstr_of_pre (pat v : List Char) (h : pat.isPrefixOf v = true) :
    hasSubstr pat v = true := by
  cases v with
  | nil =>
    cases pat with
    | nil => rfl
    | cons p ps => simp [List.isPrefixOf] at h
  | cons c rest =>
    rw [hasSubstr]
    simp [h]

theorem hasSubstr_append_left (pat w v : List Char)
    (h : hasSubstr pat v = true) : hasSubstr pat (w ++ v) = true := by
  induction w with
  | nil => simpa using h
  | cons c w' ih =>
    rw [List.cons_append, hasSubstr]
    simp [ih]

theorem hasSubstr_of_drop (pat cs : List Char) (n : Nat)
    (h : hasSubstr pat (cs.drop n) = true) : hasSubstr pat cs = true := by
  have h2 : cs = cs.take n ++ cs.drop n := (List.take_append_drop n cs).symm
  rw [h2]
  exact hasSubstr_append_left pat _ _ h

theorem dropPre_eq :
    ∀ (p cs r : List Char), dropPre p cs = some r → cs = p ++ r := by
  intro p
  induction p with
  | nil => intro cs r h; simp [dropPre] at h; simp [h]
  | cons q p' ih =>
    intro cs r h
    match cs with
    | [] => simp [dropPre] at h
    | c :: cs' =>
      rw [dropPre] at h
      split at h
      · rename_i hc
        rw [hc, List.cons_append]
        rw [ih cs' r h]
      · cases h

theorem letter_not_space (c : Char) (h : isAsciiLetter c = true) :
    isPySpace c = false := by
  by_cases hs : isPySpace c = true
  · simp [isPySpace] at hs
    rcases hs with ((((rfl | rfl) | rfl) | rfl) | rfl) | rfl <;> simp [isAsciiLetter] at h
  · simpa using hs

theorem dropWhile_head_not (p : Char → Bool) :
    ∀ (l : List Char) (d : Char) (r : List Char),
      l.dropWhile p = d :: r → p d = false := by
  intro l
  induction l with
  | nil => intro d r h; cases h
  | cons c l' ih =>
    intro d r h
    rw [List.dropWhile_cons] at h
    by_cases hc : p c = true
    · rw [if_pos hc] at h
      exact ih d r h
    · rw [Bool.not_eq_true] at hc
      rw [hc] at h
      simp only [Bool.false_eq_true, if_false] at h
      injection h with h1 h2
      rw [← h1]
      exact hc

theorem pyStrip_decomp (cs : List Char) :
    ∃ w, cs.dropWhile isPySpace = pyStrip cs ++ w ∧
      ∀ x ∈ w, isPySpace x = true := by
  refine ⟨((cs.dropWhile isPySpace).reverse.takeWhile isPySpace).reverse, ?_, ?_⟩
  · rw [pyStrip, ← List.reverse_append,
      List.takeWhile_append_dropWhile, List.reverse_reverse]
  · intro x hx
    rw [List.mem_reverse] at hx
    exact List.mem_takeWhile_imp hx

theorem pyStrip_mem (cs : List Char) (c : Char) (h : c ∈ pyStrip cs) :
    c ∈ cs := by
  obtain ⟨w, hw, _⟩ := pyStrip_decomp cs
  have h1 : c ∈ cs.dropWhile isPySpace := by
    rw [hw]; exact List.mem_append_left w h
  exact (List.dropWhile_sublist isPySpace).subset h1

theorem pyStrip_ne (cs : List Char) (c : Char) (hc : isPySpace c = false)
    (hm : c ∈ cs) : pyStrip cs ≠ [] := by
  intro he
  obtain ⟨w, hw, hws⟩ := pyStrip_decomp cs
  rw [he, List.nil_append] at hw
  have hm2 : c ∈ cs.takeWhile isPySpace ++ cs.dropWhile isPySpace := by
    rw [List.takeWhile_append_dropWhile isPySpace cs]; exact hm
  rcases List.mem_append.mp hm2 with h2 | h2
  · have := List.mem_takeWhile_imp h2
    rw [hc] at this
    cases this
  · rw [hw] at h2
    have := hws c h2
    rw [hc] at this
    cases this

theorem pyStrip_head (cs : List Char) (d : Char) (r : List Char)
    (h : pyStrip cs = d :: r) : isPySpace d = false ∧ d ∈ cs := by
  obtain ⟨w, hw, _⟩ := pyStrip_decomp cs
  rw [h, List.cons_append] at hw
  refine ⟨dropWhile_head_not isPySpace cs d (r ++ w) hw, ?_⟩
  have h1 : d ∈ cs.dropWhile isPySpace := by
    rw [hw]; exact List.mem_cons_self d _
  exact (List.dropWhile_sublist isPySpace).subset h1

theorem wsCollapse_mem :
    ∀ (f : Nat) (cs : List Char) (c : Char),
      c ∈ scanF wsRunHead f cs → c ∈ cs ∨ c = ' ' := by
  intro f
  induction f with
  | zero => intro cs c h; exact Or.inl h
  | succ f ih =>
    intro cs c h
    match cs with
    | [] => exact Or.inl h
    | d :: rest =>
      rw [scanF] at h
      by_cases hd : isPySpace d = true
      · rw [show wsRunHead (d :: rest) = some ([' '], rest.dropWhile isPySpace)
            from by simp [wsRunHead, hd]] at h
        rcases List.mem_append.mp h with h1 | h1
        · right; simpa using h1
        · rcases ih (rest.dropWhile isPySpace) c h1 with h2 | h2
          · left
            exact List.mem_cons_of_mem d
              ((List.dropWhile_sublist isPySpace).subset h2)
          · right; exact h2
      · rw [Bool.not_eq_true] at hd
        rw [show wsRunHead (d :: rest) = none from by simp [wsRunHead, hd]] at h
        rcases List.mem_cons.mp h with h1 | h1
        · left; rw [h1]; exact List.mem_cons_self d rest
        · rcases ih rest c h1 with h2 | h2
          · left; exact List.mem_cons_of_mem d h2
          · right; exact h2

theorem wsCollapse_keeps :
    ∀ (f : Nat) (cs : List Char) (c : Char), isPySpace c = false →
      c ∈ cs → c ∈ scanF wsRunHead f cs := by
  intro f
  induction f with
  | zero => intro cs c _ h; exact h
  | succ f ih =>
    intro cs c hc h
    match cs with
    | [] => exact h
    | d :: rest =>
      rw [scanF]
      by_cases hd : isPySpace d = true
      · rw [show wsRunHead (d :: rest) = some ([' '], rest.dropWhile isPySpace)
            from by simp [wsRunHead, hd]]
        rcases List.mem_cons.mp h with h1 | h1
        · rw [h1, hd] at hc; cases hc
        · have h2 : c ∈ rest.takeWhile isPySpace ++ rest.dropWhile isPySpace := by
            rw [List.takeWhile_append_dropWhile isPySpace rest]; exact h1
          rcases List.mem_append.mp h2 with h3 | h3
          · have := List.mem_takeWhile_imp h3
            rw [hc] at this
            cases this
          · exact List.mem_append_right [' '] (ih _ c hc h3)
      · rw [Bool.not_eq_true] at hd
        rw [show wsRunHead (d :: rest) = none from by simp [wsRunHead, hd]]
        rcases List.mem_cons.mp h with h1 | h1
        · rw [h1]; exact List.mem_cons_self d _
        · exact List.mem_cons_of_mem d (ih rest c hc h1)

theorem wsCollapse_mem_of (s : List Char) (c : Char) (h : c ∈ wsCollapse s) :
    c ∈ s ∨ c = ' ' := wsCollapse_mem s.length s c h

theorem wsCollapse_keeps_of (s : List Char) (c : Char)
    (hc : isPySpace c = false) (h : c ∈ s) : c ∈ wsCollapse s :=
  wsCollapse_keeps s.length s c hc h

theorem andCore_substr (u : List Char)
    (hcl : ∀ c ∈ u, isAsciiLetter c = true ∨ c = ' ')
    (h : andCore u ≠ none) : hasSubstr " and ".data u = true := by
  match u with
  | [] => exact absurd rfl h
  | d :: u' =>
    by_cases hd : isPySpace d = true
    case neg =>
      rw [Bool.not_eq_true] at hd
      exact absurd (by simp [andCore, hd]) h
    case pos =>
      simp only [andCore, hd, if_true] at h
      split at h
      · rename_i w r heq
        by_cases hw : isPySpace w = true
        · have hrun := dropPre_eq "and".data _ (w :: r) heq
          have hwmem : w ∈ d :: u' := by
            refine (List.dropWhile_sublist isPySpace).subset ?_
            rw [hrun]
            exact List.mem_append_right _ (List.mem_cons_self w r)
          have hw2 : w = ' ' := by
            rcases hcl w hwmem with hl | hsp
            · rw [letter_not_space w hl] at hw; cases hw
            · exact hsp
          have hprene : (d :: u').takeWhile isPySpace ≠ [] := by
            rw [List.takeWhile_cons, hd]
            simp
          have hlast : ((d :: u').takeWhile isPySpace).getLast hprene = ' ' := by
            have hlm := List.getLast_mem hprene
            have hlws : isPySpace (((d :: u').takeWhile isPySpace).getLast hprene) = true :=
              List.mem_takeWhile_imp hlm
            have hlmem : ((d :: u').takeWhile isPySpace).getLast hprene ∈ d :: u' :=
              (List.takeWhile_sublist isPySpace).subset hlm
            rcases hcl _ hlmem with hl | hsp
            · rw [letter_not_space _ hl] at hlws; cases hlws
            · exact hsp
          have handd : "and".data = ['a', 'n', 'd'] := rfl
          have hu : d :: u' = ((d :: u').takeWhile isPySpace).dropLast ++
              (' ' :: 'a' :: 'n' :: 'd' :: ' ' :: r) := by
            conv_lhs => rw [← List.takeWhile_append_dropWhile isPySpace (d :: u')]
            rw [hrun, hw2, handd]
            conv_lhs => rw [← List.dropLast_append_getLast hprene, hlast]
            rw [List.append_assoc]
            rfl
          rw [hu]
          apply hasSubstr_append_left
          apply hasSubstr_of_pre
          have h5 : " and ".data = [' ', 'a', 'n', 'd', ' '] := rfl
          rw [h5]
          exact isPrefixOf_self_append [' ', 'a', 'n', 'd', ' '] r
        · rw [Bool.not_eq_true] at hw
          simp [hw] at h
      · exact absurd rfl h
      · split at h
        · rename_i w r heq2
          exfalso
          have hmem : '&' ∈ d :: u' := by
            refine (List.dropWhile_sublist isPySpace).subset ?_
            rw [heq2]
            exact List.mem_cons_self '&' (w :: r)
          rcases hcl '&' hmem with hl | hsp
          · exact absurd hl (by decide)
          · exact absurd hsp (by decide)
        · exact absurd rfl h

theorem andCore_none (u : List Char)
    (hcl : ∀ c ∈ u, isAsciiLetter c = true ∨ c = ' ')
    (hsub : hasSubstr " and ".data u = false) : andCore u = none := by
  rcases h0 : andCore u with _ | v
  · rfl
  · exfalso
    have := andCore_substr u hcl (by rw [h0]; simp)
    rw [this] at hsub
    cases hsub

theorem andHead_none (b2 : List Char)
    (hcl : ∀ c ∈ b2, isAsciiLetter c = true ∨ c = ' ')
    (hand : hasSubstr " and ".data b2 = false) :
    ∀ n : Nat, andHead (b2.drop n) = none := by
  intro n
  have hclu : ∀ c ∈ b2.drop n, isAsciiLetter c = true ∨ c = ' ' :=
    fun c hc => hcl c (List.drop_subset n b2 hc)
  have hsubd : hasSubstr " and ".data (b2.drop n) = false := by
    rcases h1 : hasSubstr " and ".data (b2.drop n) with _ | _
    · rfl
    · exfalso
      have := hasSubstr_of_drop _ b2 n h1
      rw [this] at hand
      cases hand
  rcases hu : b2.drop n with _ | ⟨c, rest⟩
  · rfl
  · rw [hu] at hclu hsubd
    by_cases hc : c = ','
    · exfalso
      rcases hclu c (List.mem_cons_self c rest) with hl | hsp
      · rw [hc] at hl; exact absurd hl (by decide)
      · rw [hc] at hsp; exact absurd hsp (by decide)
    · rw [andHead.eq_def]
      split
      · rename_i rest' heq
        injection heq with h1 h2
        exact absurd h1 hc
      · rw [andCore_none (c :: rest) hclu hsubd]
        rfl

theorem andSub_id (b2 : List Char)
    (hcl : ∀ c ∈ b2, isAsciiLetter c = true ∨ c = ' ')
    (hand : hasSubstr " and ".data b2 = false) : andSub b2 = b2 :=
  scanF_id_all andHead b2.length b2 (andHead_none b2 hcl hand)

theorem sepSplitF_nosep :
    ∀ (f : Nat) (acc cs : List Char),
      (∀ c ∈ cs, ¬(c = ',' ∨ c = ':')) →
      sepSplitF f acc cs = [acc.reverse ++ cs] := by
  intro f
  induction f with
  | zero => intro acc cs _; rfl
  | succ f ih =>
    intro acc cs h
    match cs with
    | [] =>
      show [acc.reverse] = [acc.reverse ++ []]
      rw [List.append_nil]
    | c :: rest =>
      rw [sepSplitF, if_neg (h c (List.mem_cons_self c rest))]
      rw [ih (c :: acc) rest (fun x hx => h x (List.mem_cons_of_mem c hx))]
      rw [List.reverse_cons, List.append_assoc]
      rfl

theorem splitParensAux_nopar :
    ∀ (cs acc : List Char), (∀ c ∈ cs, ¬(c = '(' ∨ c = ')')) →
      acc.reverse ++ cs ≠ [] →
      splitParensAux acc cs = [acc.reverse ++ cs] := by
  intro cs
  induction cs with
  | nil =>
    intro acc _ hne
    rw [List.append_nil] at hne
    rw [splitParensAux, if_neg (fun hacc => hne (by rw [hacc]; rfl))]
    rw [List.append_nil]
  | cons c rest ih =>
    intro acc h hne
    rw [splitParensAux, if_neg (h c (List.mem_cons_self c rest))]
    rw [ih (c :: acc) (fun x hx => h x (List.mem_cons_of_mem c hx)) (by simp)]
    rw [List.reverse_cons, List.append_assoc]
    rfl

theorem splitParens_nopar (s : List Char)
    (hnp : ∀ c ∈ s, ¬(c = '(' ∨ c = ')')) (hne : s ≠ []) :
    splitParens s = [s] := by
  rw [splitParens]
  have := splitParensAux_nopar s [] hnp (by simpa using hne)
  simpa using this

theorem blocksOf_nopar (s : List Char)
    (hnp : ∀ c ∈ s, ¬(c = '(' ∨ c = ')')) (hne : s ≠ []) :
    blocksOf s = [s] := by
  rw [blocksOf, splitParens_nopar s hnp hne]
  simp

theorem rdc_single (t : List Char) : remove_double_commas [t] = [t] := by
  simp [remove_double_commas]

theorem dec_single (t : List Char) (h : t ≠ [',']) :
    dropEndCommas [t] = [t] := by
  simp [dropEndCommas, h]

theorem nameTokens_single (b2 : List Char)
    (hcl : ∀ c ∈ b2, isAsciiLetter c = true ∨ c = ' ')
    (hand : hasSubstr " and ".data b2 = false)
    (hsepcl : ∀ c ∈ b2, ¬(c = ',' ∨ c = ':'))
    (hb2 : b2 ≠ []) (ht : pyStrip b2 ≠ []) :
    nameTokens b2 = [pyStrip b2] := by
  rw [nameTokens, andSub_id b2 hcl hand]
  rw [show sepSplit b2 = [b2] from by
    rw [sepSplit, sepSplitF_nosep (b2.length + 1) [] b2 hsepcl]
    simp]
  simp only [List.foldr_cons, List.foldr_nil]
  rw [if_neg hb2]
  show (if pyStrip b2 = [] then [] else pyStrip b2 :: []) = [pyStrip b2]
  rw [if_neg ht]

theorem listxOf_single (s : List Char)
    (hhead : (wsCollapse s).head? ≠ some '(') :
    listxOf [s] = nameTokens (wsCollapse s) := by
  rw [listxOf]
  simp only [List.foldr_cons, List.foldr_nil]
  show (if (wsCollapse s).head? = some '(' then wsCollapse s :: []
    else nameTokens (wsCollapse s) ++ []) = nameTokens (wsCollapse s)
  rw [if_neg hhead, List.append_nil]

theorem collab_single (y : List Char) :
    collaboration_at_start [y] =
      (match collabSearch y with
       | none => ([y], [], 0)
       | some g => ([], [[g, [], []]], 1)) := by
  show collabLoopF 2 [y] = _
  rw [collabLoopF_cons]
  rcases hcs : collabSearch y with _ | g <;> rfl

theorem backPropRev_length :
    ∀ (l : List Entry) (la : List (List Char)),
      (backPropRev l la).length = l.length := by
  intro l
  induction l with
  | nil => intro la; rfl
  | cons e rest ih =>
    intro la
    rw [backPropRev]
    by_cases h1 : 3 < e.length
    · rw [if_pos h1]; simp [ih]
    · rw [if_neg h1]
      by_cases h2 : la ≠ []
      · rw [if_pos h2]; simp [ih]
      · rw [if_neg h2]; simp [ih]

theorem back_propagate_length (l : List Entry) (bp : Nat) :
    (parse_author_affil_back_propagate l bp).length = l.length := by
  rw [parse_author_affil_back_propagate]
  simp [backPropRev_length]
  omega

/-- **C7 (counterexample).** The input `(abc)` is non-empty and contains
letter characters, yet the parse entry point returns no records: the whole
line is a single parenthesized comment token, which the `^[^](,]` keep
filter removes, leaving an empty name list. -/
theorem parse_nonempty_counterexample :
    "(abc)".data ≠ [] ∧ (∃ c ∈ "(abc)".data, isAsciiLetter c = true) ∧
      parse_author_affil_utf "(abc)".data = [] := by
  refine ⟨by decide, by decide, ?_⟩
  rfl

/-- If any token survives to the collaboration loop, the loop leaves a
non-empty name list or produces at least one collaboration entry. -/
theorem collabLoopF_ne :
    ∀ (f : Nat) (names : List (List Char)), names ≠ [] →
      (collabLoopF f names).1 ≠ [] ∨ (collabLoopF f names).2.1 ≠ [] := by
  intro f names hne2
  match f, names with
  | 0, names => exact Or.inl hne2
  | f + 1, [] => exact absurd rfl hne2
  | f + 1, n0 :: rest =>
    rcases hcs : collabSearch n0 with _ | g
    · left
      rw [collabLoopF_cons, hcs]
      exact List.cons_ne_nil n0 rest
    · right
      rw [collabLoopF_cons, hcs]
      exact List.cons_ne_nil _ _

/-- **C7.** Amended non-emptiness: the parse entry point returns a
non-empty list of records for every input for which at least one name
token survives tokenization, the comma cleanup, the `^[^](,]` keep filter
and the et-al filter (`namesStage ≠ []`) — in particular for ordinary
name lists such as `J. Smith` or comma-separated multi-author lines.  The
claim's unrestricted form (any non-empty input with a letter parses to a
non-empty list) is refuted by `parse_nonempty_counterexample`: the losses
happen exactly when every token is consumed by those filters. -/
theorem parse_nonempty_of_names (s : List Char)
    (h : namesStage s ≠ []) : parse_author_affil_utf s ≠ [] := by
  have hne : s ≠ [] := by
    intro he
    apply h
    rw [he]
    rfl
  have hsa : split_authors s ≠ [] := by
    intro he
    apply h
    simp only [namesStage]
    rw [he]
    rfl
  have hsplit1 : (parse_author_affil_split s).1 ≠ [] := by
    rw [parse_author_affil_split, if_neg hne, if_neg hsa]
    show ((collaboration_at_start (namesStage s)).2.1 ++
      authorListWith s (enum_collaboration_at_end s)
        (collaboration_at_start (namesStage s)).1) ≠ []
    intro hcon
    rcases List.append_eq_nil.mp hcon with ⟨ha, hb⟩
    rcases collabLoopF_ne ((namesStage s).length + 1) (namesStage s) h
      with h1 | h1
    · apply h1
      exact List.map_eq_nil_iff.mp (by rwa [authorListWith] at hb)
    · exact h1 ha
  have hfinal : parse_author_affil s ≠ [] := by
    intro hcon
    have hcon2 : parse_author_affil_back_propagate
        (parse_author_affil_split s).1 (parse_author_affil_split s).2 =
        [] := hcon
    have hlen := back_propagate_length (parse_author_affil_split s).1
      (parse_author_affil_split s).2
    rw [hcon2] at hlen
    exact hsplit1 (List.length_eq_zero.mp hlen.symm)
  rw [parse_author_affil_utf, if_neg hne]
  intro hcon
  rw [List.map_eq_nil_iff] at hcon
  exact hfinal hcon

/-- Witness for `parse_nonempty_of_names` at the input `J. Smith`. -/
theorem parse_nonempty_of_names_witness :
    parse_author_affil_utf "J. Smith".data ≠ [] :=
  parse_nonempty_of_names "J. Smith".data (by decide)

end UKM
